import Mathlib

/-!
Verification development for the myotube / nuclei image-analysis pipeline
(`myotube_detection.py`, `nuclei_detection.py`, `nuclei_myotube_relationship.py`).

Images are shallowly embedded as rectangular (possibly ragged) grids of
natural-number intensities: `Grid := List (List Nat)`.  A pixel position is a
`(row, column)` pair; out-of-range reads return `0`, matching the fact that
every algorithm below only ever reads in-range pixels (where it does not, the
corresponding theorem states so explicitly).  Python floats appearing in the
source (centroids, percentages) are modelled by exact rationals `ℚ`; fallible
code paths (a `ZeroDivisionError`, a numpy `IndexError`) are modelled by
`Option` / `Except`.
-/

namespace ImgAnalysis

/-- A pixel position: `(row, column)`. -/
abbrev Pos := Nat × Nat

/-- A single-channel image: a list of rows of natural-number intensities
(`uint8` values in the source). -/
abbrev Grid := List (List Nat)

namespace Grid

/-- Row `y` of a grid (empty if out of range). -/
def row (g : Grid) (y : Nat) : List Nat := g.getD y []

/-- Pixel read `g[y, x]`; out-of-range positions read as `0`.  The source code
only reads in-bounds pixels (this is claim C10 for the relationship analyzer). -/
def get (g : Grid) (p : Pos) : Nat := (g.row p.1).getD p.2 0

/-- Height: `shape[0]` of the numpy array. -/
def H (g : Grid) : Nat := g.length

/-- Width as numpy reports it: `shape[1]`, the length of the first row. -/
def W (g : Grid) : Nat := (g.headD []).length

/-- The grid is rectangular: every row has length `W` (numpy arrays always
satisfy this; list-of-list grids need not). -/
def Rect (g : Grid) : Prop := ∀ r ∈ g, r.length = g.W

instance : DecidablePred Rect := fun g =>
  decidable_of_iff (∀ r ∈ g, r.length = g.W) Iff.rfl

/-- Rebuild a grid of the same (possibly ragged) shape from a pixel function
(used to embed all pointwise image operations; `np.zeros_like` + writes). -/
def pointwise (g : Grid) (f : Pos → Nat) : Grid :=
  (List.range g.length).map fun y =>
    (List.range (g.row y).length).map fun x => f (y, x)

/-- The set of in-range positions of a grid. -/
def positions (g : Grid) : Finset Pos :=
  (Finset.range g.length).biUnion fun y =>
    (Finset.range (g.row y).length).image fun x => (y, x)

/-- Foreground positions: in-range pixels with a nonzero value. -/
def fgSet (g : Grid) : Finset Pos := g.positions.filter fun p => g.get p ≠ 0

/-- All pixel values of the grid in raster order (`np.ndarray.flatten`). -/
def entries (g : Grid) : List Nat := g.flatten

/-- `np.max` over the grid (0 for an empty grid, where numpy would raise). -/
def maxVal (g : Grid) : Nat := g.entries.foldr max 0

/-- In-range positions in raster (row-major) order, the order in which numpy
and skimage enumerate pixels. -/
def raster (g : Grid) : List Pos :=
  (List.range g.length).flatMap fun y =>
    (List.range (g.row y).length).map fun x => (y, x)

/-- The all-zero `H × W` grid (`np.zeros`). -/
def zero (hgt wid : Nat) : Grid :=
  List.replicate hgt (List.replicate wid 0)

end Grid

section GridLemmas

@[simp] lemma row_nil (y : Nat) : Grid.row [] y = [] := by
  cases y <;> rfl

lemma mem_positions_iff (g : Grid) (p : Pos) :
    p ∈ g.positions ↔ p.1 < g.length ∧ p.2 < (g.row p.1).length := by
  constructor
  · intro h
    simp only [Grid.positions, Finset.mem_biUnion, Finset.mem_range,
      Finset.mem_image] at h
    obtain ⟨y, hy, x, hx, he⟩ := h
    cases he
    exact ⟨hy, hx⟩
  · rintro ⟨hy, hx⟩
    simp only [Grid.positions, Finset.mem_biUnion, Finset.mem_range,
      Finset.mem_image]
    exact ⟨p.1, hy, p.2, hx, rfl⟩

lemma get_eq_zero_of_notMem_positions (g : Grid) (p : Pos)
    (h : p ∉ g.positions) : g.get p = 0 := by
  rcases Nat.lt_or_ge p.1 g.length with hy | hy
  · rcases Nat.lt_or_ge p.2 (g.row p.1).length with hx | hx
    · exact absurd ((mem_positions_iff g p).2 ⟨hy, hx⟩) h
    · unfold Grid.get
      exact List.getD_eq_default _ _ hx
  · unfold Grid.get Grid.row
    rw [List.getD_eq_default _ _ hy]
    cases p.2 <;> rfl

lemma mem_positions_of_get_ne_zero {g : Grid} {p : Pos}
    (h : g.get p ≠ 0) : p ∈ g.positions := by
  by_contra hc
  exact h (get_eq_zero_of_notMem_positions g p hc)

@[simp] lemma zero_get (hgt wid : Nat) (p : Pos) :
    (Grid.zero hgt wid).get p = 0 := by
  have hrow : (Grid.zero hgt wid).row p.1 = List.replicate wid 0 ∨
      (Grid.zero hgt wid).row p.1 = [] := by
    unfold Grid.zero Grid.row
    rcases Nat.lt_or_ge p.1 hgt with h | h
    · left
      rw [List.getD_eq_getElem?_getD, List.getElem?_replicate, if_pos h]
      rfl
    · right
      exact List.getD_eq_default _ _ (by simpa using h)
  unfold Grid.get
  rcases hrow with h | h <;> rw [h]
  · rcases Nat.lt_or_ge p.2 wid with h2 | h2
    · rw [List.getD_eq_getElem?_getD, List.getElem?_replicate, if_pos h2]
      rfl
    · exact List.getD_eq_default _ _ (by simpa using h2)
  · cases p.2 <;> rfl

end GridLemmas

section PointwiseLemmas

lemma pointwise_length (g : Grid) (f : Pos → Nat) :
    (g.pointwise f).length = g.length := by
  simp [Grid.pointwise]

lemma pointwise_row (g : Grid) (f : Pos → Nat) (y : Nat) (hy : y < g.length) :
    (g.pointwise f).row y = (List.range (g.row y).length).map fun x => f (y, x) := by
  unfold Grid.pointwise Grid.row
  rw [List.getD_eq_getElem?_getD, List.getElem?_map, List.getElem?_range hy]
  rfl

lemma pointwise_row_out (g : Grid) (f : Pos → Nat) (y : Nat)
    (hy : g.length ≤ y) : (g.pointwise f).row y = [] := by
  unfold Grid.row
  refine List.getD_eq_default _ _ ?_
  rw [pointwise_length]
  exact hy

lemma pointwise_row_length (g : Grid) (f : Pos → Nat) (y : Nat)
    (hy : y < g.length) :
    ((g.pointwise f).row y).length = (g.row y).length := by
  rw [pointwise_row g f y hy]
  simp

lemma pointwise_get (g : Grid) (f : Pos → Nat) (p : Pos) :
    (g.pointwise f).get p = if p ∈ g.positions then f p else 0 := by
  by_cases h : p ∈ g.positions
  · rw [if_pos h]
    obtain ⟨hy, hx⟩ := (mem_positions_iff g p).1 h
    unfold Grid.get
    rw [pointwise_row g f p.1 hy, List.getD_eq_getElem?_getD, List.getElem?_map,
      List.getElem?_range hx]
    rfl
  · rw [if_neg h]
    obtain ⟨hy, hx⟩ | hy := or_iff_not_imp_right.2
      (fun hy : ¬ g.length ≤ p.1 =>
        And.intro (Nat.lt_of_not_le hy)
          ((mem_positions_iff g p).not.1 h |> fun hn => by
            rcases Nat.lt_or_ge p.2 (g.row p.1).length with hx | hx
            · exact absurd ⟨Nat.lt_of_not_le hy, hx⟩ hn
            · exact hx))
    · unfold Grid.get
      rw [pointwise_row g f p.1 hy]
      refine List.getD_eq_default _ _ ?_
      simpa using hx
    · unfold Grid.get
      rw [pointwise_row_out g f p.1 hy]
      cases p.2 <;> rfl

lemma pointwise_positions (g : Grid) (f : Pos → Nat) :
    (g.pointwise f).positions = g.positions := by
  ext p
  rw [mem_positions_iff, mem_positions_iff, pointwise_length]
  constructor
  · rintro ⟨hy, hx⟩
    exact ⟨hy, by rwa [pointwise_row_length g f p.1 hy] at hx⟩
  · rintro ⟨hy, hx⟩
    exact ⟨hy, by rwa [pointwise_row_length g f p.1 hy]⟩

lemma pointwise_pointwise (g : Grid) (f f2 : Pos → Nat) :
    (g.pointwise f).pointwise f2 = g.pointwise f2 := by
  show (List.range (g.pointwise f).length).map
      (fun y => (List.range ((g.pointwise f).row y).length).map fun x => f2 (y, x)) =
    (List.range g.length).map
      (fun y => (List.range (g.row y).length).map fun x => f2 (y, x))
  rw [pointwise_length]
  refine List.map_congr_left ?_
  intro y hy
  rw [List.mem_range] at hy
  rw [pointwise_row_length g f y hy]

lemma pointwise_congr (g : Grid) (f f2 : Pos → Nat)
    (h : ∀ p ∈ g.positions, f p = f2 p) :
    g.pointwise f = g.pointwise f2 := by
  unfold Grid.pointwise
  refine List.map_congr_left ?_
  intro y hy
  rw [List.mem_range] at hy
  refine List.map_congr_left ?_
  intro x hx
  rw [List.mem_range] at hx
  exact h (y, x) ((mem_positions_iff g (y, x)).2 ⟨hy, hx⟩)

end PointwiseLemmas

/-! ### Connected components

`skimage.measure.label` with its 2-D default (full, i.e. 8-neighbour,
connectivity).  A component is computed as the limit of a breadth-first
frontier expansion; we prove that limit exactly characterises reflexive-
transitive reachability through foreground pixels. -/

/-- 8-neighbour (Chebyshev distance 1) adjacency of two distinct positions. -/
def adj (p q : Pos) : Prop :=
  p ≠ q ∧ p.1 ≤ q.1 + 1 ∧ q.1 ≤ p.1 + 1 ∧ p.2 ≤ q.2 + 1 ∧ q.2 ≤ p.2 + 1

instance : DecidableRel adj := fun p q => by
  unfold adj
  infer_instance

lemma adj_symm {p q : Pos} (h : adj p q) : adj q p := by
  obtain ⟨hne, h1, h2, h3, h4⟩ := h
  exact ⟨fun he => hne he.symm, h2, h1, h4, h3⟩

/-- One step of flood fill: from `p` to a foreground 8-neighbour `q`. -/
def Step (g : Grid) (p q : Pos) : Prop := g.get q ≠ 0 ∧ adj p q

/-- `q` is reachable from `p` through foreground pixels. -/
def Reaches (g : Grid) (p q : Pos) : Prop := Relation.ReflTransGen (Step g) p q

/-- One round of frontier expansion: add all foreground pixels adjacent to the
current set. -/
def expand (g : Grid) (s : Finset Pos) : Finset Pos :=
  s ∪ g.fgSet.filter fun q => ∃ r ∈ s, adj r q

/-- The connected component of `p` in `g`: the frontier expansion iterated
until it must have stabilised (once per pixel of the grid). -/
def comp (g : Grid) (p : Pos) : Finset Pos :=
  (expand g)^[g.positions.card] {p}

lemma subset_expand (g : Grid) (s : Finset Pos) : s ⊆ expand g s :=
  Finset.subset_union_left

lemma subset_iterate_expand (g : Grid) (s : Finset Pos) (n : Nat) :
    s ⊆ (expand g)^[n] s := by
  induction n with
  | zero => simp
  | succ n ih =>
    rw [Function.iterate_succ_apply']
    exact ih.trans (subset_expand g _)

lemma mem_comp_self (g : Grid) (p : Pos) : p ∈ comp g p :=
  subset_iterate_expand g {p} _ (Finset.mem_singleton_self p)

lemma expand_subset_positions (g : Grid) {s : Finset Pos}
    (hs : s ⊆ g.positions) : expand g s ⊆ g.positions := by
  unfold expand
  refine Finset.union_subset hs ?_
  intro q hq
  exact Finset.mem_of_mem_filter q (Finset.mem_of_mem_filter q hq)

lemma iterate_expand_subset_positions (g : Grid) {s : Finset Pos}
    (hs : s ⊆ g.positions) (n : Nat) : (expand g)^[n] s ⊆ g.positions := by
  induction n with
  | zero => simpa
  | succ n ih =>
    rw [Function.iterate_succ_apply']
    exact expand_subset_positions g ih

lemma reaches_of_mem_iterate (g : Grid) (p q : Pos) (n : Nat)
    (h : q ∈ (expand g)^[n] {p}) : Reaches g p q := by
  induction n generalizing q with
  | zero =>
    simp only [Function.iterate_zero, id_eq, Finset.mem_singleton] at h
    exact h ▸ Relation.ReflTransGen.refl
  | succ n ih =>
    rw [Function.iterate_succ_apply'] at h
    rcases Finset.mem_union.1 h with h | h
    · exact ih q h
    · have h1 := Finset.mem_filter.1 h
      obtain ⟨r, hr, hadj⟩ := h1.2
      have hfg : g.get q ≠ 0 := (Finset.mem_filter.1 h1.1).2
      exact Relation.ReflTransGen.tail (ih r hr) ⟨hfg, hadj⟩

lemma iterate_fixed_from {α : Type} (f : α → α) (s : α) (k : Nat)
    (hk : f^[k + 1] s = f^[k] s) :
    ∀ m, k ≤ m → f^[m] s = f^[k] s := by
  have main : ∀ d, f^[k + d] s = f^[k] s := by
    intro d
    induction d with
    | zero => rfl
    | succ d ih =>
      calc f^[k + (d + 1)] s = f^[1] (f^[k + d] s) := by
            rw [← Function.iterate_add_apply]
            congr 1
            omega
        _ = f^[1] (f^[k] s) := by rw [ih]
        _ = f^[1 + k] s := (Function.iterate_add_apply f 1 k s).symm
        _ = f^[k + 1] s := by rw [Nat.add_comm]
        _ = f^[k] s := hk
  intro m hm
  obtain ⟨d, rfl⟩ := Nat.exists_eq_add_of_le hm
  exact main d

lemma comp_fixed (g : Grid) (p : Pos) (hp : p ∈ g.positions) :
    expand g (comp g p) = comp g p := by
  set n := g.positions.card with hn
  have hsub : ∀ k, (expand g)^[k] {p} ⊆ g.positions :=
    iterate_expand_subset_positions g (by simpa using hp)
  -- some iterate below n is already fixed
  have key : ∃ k ≤ n, (expand g)^[k + 1] {p} = (expand g)^[k] {p} := by
    by_contra hc
    push_neg at hc
    have grow : ∀ k, k ≤ n → k + 1 ≤ ((expand g)^[k] {p}).card := by
      intro k
      induction k with
      | zero => intro _; simp
      | succ k ih =>
        intro hk
        have hlt : (expand g)^[k] {p} ⊂ (expand g)^[k + 1] {p} := by
          refine Finset.ssubset_iff_subset_ne.2 ⟨?_, ?_⟩
          · rw [Function.iterate_succ_apply']
            exact subset_expand g _
          · exact fun he => hc k (by omega) he.symm
        have := Finset.card_lt_card hlt
        have := ih (by omega)
        omega
    have h1 := grow n (le_refl n)
    have h2 := Finset.card_le_card (hsub n)
    rw [← hn] at h2
    omega
  obtain ⟨k, hk, hfix⟩ := key
  have h1 : (expand g)^[n] {p} = (expand g)^[k] {p} :=
    iterate_fixed_from (expand g) {p} k hfix n hk
  have h2 : (expand g)^[n + 1] {p} = (expand g)^[k] {p} :=
    iterate_fixed_from (expand g) {p} k hfix (n + 1) (by omega)
  unfold comp
  rw [← hn]
  calc expand g ((expand g)^[n] {p})
      = (expand g)^[n + 1] {p} :=
        (Function.iterate_succ_apply' (expand g) n {p}).symm
    _ = (expand g)^[k] {p} := h2
    _ = (expand g)^[n] {p} := h1.symm

lemma mem_comp_of_reaches (g : Grid) (p q : Pos) (hp : p ∈ g.positions)
    (h : Reaches g p q) : q ∈ comp g p := by
  induction h with
  | refl => exact mem_comp_self g p
  | tail hab hbc ih =>
    rename_i b c
    have : c ∈ expand g (comp g p) := by
      unfold expand
      refine Finset.mem_union_right _ (Finset.mem_filter.2 ⟨?_, b, ih, hbc.2⟩)
      exact Finset.mem_filter.2 ⟨mem_positions_of_get_ne_zero hbc.1, hbc.1⟩
    rwa [comp_fixed g p hp] at this

lemma mem_comp_iff_reaches (g : Grid) (p q : Pos) (hp : p ∈ g.positions) :
    q ∈ comp g p ↔ Reaches g p q :=
  ⟨reaches_of_mem_iterate g p q _, mem_comp_of_reaches g p q hp⟩

lemma comp_subset_positions (g : Grid) (p : Pos) (hp : p ∈ g.positions) :
    comp g p ⊆ g.positions :=
  iterate_expand_subset_positions g (by simpa using hp) _

lemma mem_fgSet (g : Grid) (p : Pos) : p ∈ g.fgSet ↔ g.get p ≠ 0 := by
  unfold Grid.fgSet
  rw [Finset.mem_filter]
  exact ⟨fun h => h.2, fun h => ⟨mem_positions_of_get_ne_zero h, h⟩⟩

lemma fg_of_reaches {g : Grid} {p q : Pos} (hp : g.get p ≠ 0)
    (h : Reaches g p q) : g.get q ≠ 0 := by
  induction h with
  | refl => exact hp
  | tail _ hbc _ => exact hbc.1

lemma reaches_symm {g : Grid} {p q : Pos} (hp : g.get p ≠ 0)
    (h : Reaches g p q) : Reaches g q p := by
  induction h with
  | refl => exact Relation.ReflTransGen.refl
  | tail hab hbc ih =>
    exact Relation.ReflTransGen.head ⟨fg_of_reaches hp hab, adj_symm hbc.2⟩ ih

lemma fg_of_mem_comp {g : Grid} {p q : Pos} (hp : g.get p ≠ 0)
    (hq : q ∈ comp g p) : g.get q ≠ 0 :=
  fg_of_reaches hp ((mem_comp_iff_reaches g p q
    (mem_positions_of_get_ne_zero hp)).1 hq)

lemma comp_eq_of_mem {g : Grid} {p q : Pos} (hp : g.get p ≠ 0)
    (hq : q ∈ comp g p) : comp g p = comp g q := by
  have hppos := mem_positions_of_get_ne_zero hp
  have hpq : Reaches g p q := (mem_comp_iff_reaches g p q hppos).1 hq
  have hfgq : g.get q ≠ 0 := fg_of_reaches hp hpq
  have hqpos := mem_positions_of_get_ne_zero hfgq
  ext r
  rw [mem_comp_iff_reaches g p r hppos, mem_comp_iff_reaches g q r hqpos]
  exact ⟨fun hpr => Relation.ReflTransGen.trans (reaches_symm hp hpq) hpr,
    fun hqr => Relation.ReflTransGen.trans hpq hqr⟩

/-! ### Label assignment

`skimage.measure.label` numbers components `1, 2, …` in raster order of each
component's first-encountered pixel.  We realise this by keying every
component by the minimal raster encoding of its pixels and numbering the keys
in increasing order. -/

/-- The largest row length of the grid (equals `W` for rectangular grids). -/
def Grid.maxRowLen (g : Grid) : Nat := (g.map List.length).foldr max 0

lemma le_foldr_max {l : List Nat} {a : Nat} (h : a ∈ l) :
    a ≤ l.foldr max 0 := by
  induction l with
  | nil => cases h
  | cons b l ih =>
    rcases List.mem_cons.1 h with rfl | h
    · exact Nat.le_max_left _ _
    · exact (ih h).trans (Nat.le_max_right _ _)

lemma rowLen_le_maxRowLen (g : Grid) (y : Nat) (hy : y < g.length) :
    (g.row y).length ≤ g.maxRowLen := by
  refine le_foldr_max ?_
  refine List.mem_map.2 ⟨g.row y, ?_, rfl⟩
  unfold Grid.row
  rw [List.getD_eq_getElem?_getD, List.getElem?_eq_getElem hy]
  exact List.getElem_mem hy

/-- Raster encoding of a position, injective on in-range positions. -/
def enc (g : Grid) (p : Pos) : Nat := p.1 * (g.maxRowLen + 1) + p.2

lemma enc_injOn (g : Grid) {p q : Pos} (hp : p ∈ g.positions)
    (hq : q ∈ g.positions) (h : enc g p = enc g q) : p = q := by
  obtain ⟨hp1, hp2⟩ := (mem_positions_iff g p).1 hp
  obtain ⟨hq1, hq2⟩ := (mem_positions_iff g q).1 hq
  have hp2m : p.2 < g.maxRowLen + 1 :=
    Nat.lt_succ_of_le (hp2.le.trans (rowLen_le_maxRowLen g p.1 hp1))
  have hq2m : q.2 < g.maxRowLen + 1 :=
    Nat.lt_succ_of_le (hq2.le.trans (rowLen_le_maxRowLen g q.1 hq1))
  unfold enc at h
  set M := g.maxRowLen + 1
  have h2 : p.2 = q.2 := by
    have e1 : (p.1 * M + p.2) % M = p.2 := by
      rw [Nat.mul_comm, Nat.mul_add_mod]
      exact Nat.mod_eq_of_lt hp2m
    have e2 : (q.1 * M + q.2) % M = q.2 := by
      rw [Nat.mul_comm, Nat.mul_add_mod]
      exact Nat.mod_eq_of_lt hq2m
    rw [← e1, ← e2, h]
  have h1 : p.1 = q.1 := by
    have : p.1 * M = q.1 * M := by omega
    exact Nat.eq_of_mul_eq_mul_right (by omega) this
  exact Prod.ext h1 h2

/-- The key of `p`'s component: the minimal raster encoding of its pixels. -/
def compKey (g : Grid) (p : Pos) : Nat :=
  ((comp g p).image (enc g)).min' (Finset.Nonempty.image ⟨p, mem_comp_self g p⟩ _)

lemma compKey_exists (g : Grid) (p : Pos) :
    ∃ q ∈ comp g p, enc g q = compKey g p := by
  have h := Finset.min'_mem ((comp g p).image (enc g))
    (Finset.Nonempty.image ⟨p, mem_comp_self g p⟩ _)
  obtain ⟨q, hq, he⟩ := Finset.mem_image.1 h
  exact ⟨q, hq, he⟩

lemma compKey_congr (g : Grid) {p q : Pos} (h : comp g p = comp g q) :
    compKey g p = compKey g q := by
  unfold compKey
  congr 1
  rw [h]

lemma comp_eq_of_compKey_eq {g : Grid} {p q : Pos} (hp : g.get p ≠ 0)
    (hq : g.get q ≠ 0) (h : compKey g p = compKey g q) :
    comp g p = comp g q := by
  obtain ⟨a, ha, hae⟩ := compKey_exists g p
  obtain ⟨b, hb, hbe⟩ := compKey_exists g q
  have hppos := mem_positions_of_get_ne_zero hp
  have hqpos := mem_positions_of_get_ne_zero hq
  have hab : a = b := by
    refine enc_injOn g (comp_subset_positions g p hppos ha)
      (comp_subset_positions g q hqpos hb) ?_
    rw [hae, hbe, h]
  subst hab
  calc comp g p = comp g a := comp_eq_of_mem hp ha
    _ = comp g q := (comp_eq_of_mem hq hb).symm

/-- The set of component keys of the grid. -/
def keySet (g : Grid) : Finset Nat := g.fgSet.image (compKey g)

/-- The label `skimage.measure.label` assigns to pixel `p`: background pixels
get `0`; a foreground pixel gets one plus the number of components whose first
raster pixel precedes that of its own component (labels are hence the dense
range `1..N` in raster order of first encounter). -/
def label (g : Grid) (p : Pos) : Nat :=
  if g.get p ≠ 0 then ((keySet g).filter fun k => k < compKey g p).card + 1
  else 0

/-- The labelled-region map `measure.label` returns. -/
def measureLabel (g : Grid) : Grid := g.pointwise fun p => label g p

lemma label_eq_zero_iff (g : Grid) (p : Pos) :
    label g p = 0 ↔ g.get p = 0 := by
  unfold label
  by_cases h : g.get p = 0
  · rw [if_neg (by simp [h])]
    simp [h]
  · rw [if_pos h]
    simp [h]

lemma measureLabel_get (g : Grid) (p : Pos) :
    (measureLabel g).get p = label g p := by
  unfold measureLabel
  rw [pointwise_get]
  by_cases h : p ∈ g.positions
  · rw [if_pos h]
  · rw [if_neg h]
    have : g.get p = 0 := get_eq_zero_of_notMem_positions g p h
    exact ((label_eq_zero_iff g p).2 this).symm

lemma rank_lt_of_lt {s : Finset Nat} {a b : Nat} (ha : a ∈ s) (hab : a < b) :
    (s.filter fun k => k < a).card < (s.filter fun k => k < b).card := by
  refine Finset.card_lt_card (Finset.ssubset_iff_subset_ne.2 ⟨?_, ?_⟩)
  · intro k hk
    have h2 := Finset.mem_filter.1 hk
    exact Finset.mem_filter.2 ⟨h2.1, lt_trans h2.2 hab⟩
  · intro he
    have h1 : a ∈ s.filter fun k => k < b := Finset.mem_filter.2 ⟨ha, hab⟩
    rw [← he] at h1
    exact absurd (Finset.mem_filter.1 h1).2 (lt_irrefl a)

lemma rank_inj {s : Finset Nat} {a b : Nat} (ha : a ∈ s) (hb : b ∈ s)
    (h : (s.filter fun k => k < a).card = (s.filter fun k => k < b).card) :
    a = b := by
  rcases lt_trichotomy a b with hlt | he | hlt
  · exact absurd h (Nat.ne_of_lt (rank_lt_of_lt ha hlt))
  · exact he
  · exact absurd h.symm (Nat.ne_of_lt (rank_lt_of_lt hb hlt))

lemma compKey_mem_keySet {g : Grid} {p : Pos} (hp : g.get p ≠ 0) :
    compKey g p ∈ keySet g :=
  Finset.mem_image_of_mem _ ((mem_fgSet g p).2 hp)

lemma label_eq_iff {g : Grid} {p q : Pos} (hp : g.get p ≠ 0)
    (hq : g.get q ≠ 0) : label g p = label g q ↔ comp g p = comp g q := by
  unfold label
  rw [if_pos hp, if_pos hq]
  constructor
  · intro h
    have h2 := Nat.add_right_cancel h
    exact comp_eq_of_compKey_eq hp hq
      (rank_inj (compKey_mem_keySet hp) (compKey_mem_keySet hq) h2)
  · intro h
    rw [compKey_congr g h]

lemma mem_comp_iff_label {g : Grid} {p q : Pos} (hp : g.get p ≠ 0) :
    q ∈ comp g p ↔ g.get q ≠ 0 ∧ label g q = label g p := by
  constructor
  · intro h
    have hfgq := fg_of_mem_comp hp h
    exact ⟨hfgq, (label_eq_iff hfgq hp).2 (comp_eq_of_mem hp h).symm⟩
  · rintro ⟨hfgq, hl⟩
    have : comp g q = comp g p := (label_eq_iff hfgq hp).1 hl
    rw [← this]
    exact mem_comp_self g q

/-! ### Region metrics and the minimum-area filter

`myotube_detection.py` lines 69–84: label the cleaned mask, measure each
region's area (`skimage.measure.regionprops`), keep only regions of area at
least `min_area = 100`, painting their pixels with 255 into
`filtered_binary` and accumulating `myotube_count` / `total_myotube_area`. -/

/-- `regionprops` area of the region carrying label `l`: its pixel count. -/
def regionArea (g : Grid) (l : Nat) : Nat :=
  (g.positions.filter fun p => (measureLabel g).get p = l).card

/-- `min_area = 100  # Minimum area threshold`. -/
def minArea : Nat := 100

/-- The filtered binary mask: pixels of regions with area at least `minArea`
are painted 255 (`filtered_binary[coord] = 255` over each kept region's
coordinates), everything else stays at the `np.zeros_like` background. -/
def areaFilter (g : Grid) : Grid :=
  g.pointwise fun p =>
    if (measureLabel g).get p ≠ 0 ∧
        minArea ≤ regionArea g ((measureLabel g).get p)
    then 255 else 0

/-- The positive label values present in the label map (one per region). -/
def labelVals (g : Grid) : Finset Nat := g.fgSet.image (label g)

/-- `myotube_count`: the number of regions whose area reaches `minArea`. -/
def myotubeCount (g : Grid) : Nat :=
  ((labelVals g).filter fun l => minArea ≤ regionArea g l).card

/-- `total_myotube_area`: the summed area of the kept regions. -/
def totalMyotubeArea (g : Grid) : Nat :=
  ∑ l ∈ (labelVals g).filter fun l => minArea ≤ regionArea g l, regionArea g l

/-- The connected components of the mask with area at least `minArea`
(the mathematical counterpart the claims speak about). -/
def bigComps (g : Grid) : Finset (Finset Pos) :=
  (g.fgSet.filter fun p => minArea ≤ (comp g p).card).image (comp g)

lemma labelClass_eq_comp {g : Grid} {p : Pos} (hp : g.get p ≠ 0) :
    (g.positions.filter fun q => (measureLabel g).get q = label g p)
      = comp g p := by
  have hlp : label g p ≠ 0 := fun h => hp ((label_eq_zero_iff g p).1 h)
  ext q
  rw [Finset.mem_filter, measureLabel_get]
  constructor
  · rintro ⟨hqpos, hl⟩
    have hfgq : g.get q ≠ 0 := by
      intro h0
      rw [(label_eq_zero_iff g q).2 h0] at hl
      exact hlp hl.symm
    exact (mem_comp_iff_label hp).2 ⟨hfgq, hl⟩
  · intro hq
    obtain ⟨hfgq, hl⟩ := (mem_comp_iff_label hp).1 hq
    exact ⟨mem_positions_of_get_ne_zero hfgq, hl⟩

lemma regionArea_label {g : Grid} {p : Pos} (hp : g.get p ≠ 0) :
    regionArea g (label g p) = (comp g p).card := by
  unfold regionArea
  rw [labelClass_eq_comp hp]

lemma areaFilter_get (g : Grid) (p : Pos) :
    (areaFilter g).get p =
      if g.get p ≠ 0 ∧ minArea ≤ (comp g p).card then 255 else 0 := by
  unfold areaFilter
  rw [pointwise_get]
  by_cases h : p ∈ g.positions
  · rw [if_pos h]
    have hc : ((measureLabel g).get p ≠ 0 ∧
        minArea ≤ regionArea g ((measureLabel g).get p)) ↔
        (g.get p ≠ 0 ∧ minArea ≤ (comp g p).card) := by
      rw [measureLabel_get]
      constructor
      · rintro ⟨h1, h2⟩
        have hfg : g.get p ≠ 0 := fun h0 => h1 ((label_eq_zero_iff g p).2 h0)
        rw [regionArea_label hfg] at h2
        exact ⟨hfg, h2⟩
      · rintro ⟨h1, h2⟩
        refine ⟨fun h0 => h1 ((label_eq_zero_iff g p).1 h0), ?_⟩
        rw [regionArea_label h1]
        exact h2
    rw [if_congr hc rfl rfl]
  · rw [if_neg h]
    have h0 : g.get p = 0 := get_eq_zero_of_notMem_positions g p h
    rw [if_neg]
    rintro ⟨h1, _⟩
    exact h1 h0

lemma areaFilter_fg (g : Grid) (p : Pos) :
    (areaFilter g).get p ≠ 0 ↔
      g.get p ≠ 0 ∧ minArea ≤ (comp g p).card := by
  rw [areaFilter_get]
  by_cases h : g.get p ≠ 0 ∧ minArea ≤ (comp g p).card
  · rw [if_pos h]
    simp [h]
  · rw [if_neg h]
    simp [h]

/-- Summed values over two images of the same set agree when the two image
maps identify the same pairs and assign equal values elementwise. -/
lemma sum_image_congr {α β γ : Type} [DecidableEq α] [DecidableEq β]
    [DecidableEq γ] {s : Finset α} {f : α → β} {h : α → γ}
    {vf : β → Nat} {vh : γ → Nat}
    (hker : ∀ a ∈ s, ∀ b ∈ s, (f a = f b ↔ h a = h b))
    (hval : ∀ a ∈ s, vf (f a) = vh (h a)) :
    ∑ b ∈ s.image f, vf b = ∑ c ∈ s.image h, vh c := by
  induction s using Finset.induction_on with
  | empty => simp
  | @insert a s' ha ih =>
    rw [Finset.image_insert, Finset.image_insert]
    have hmem : a ∈ insert a s' := Finset.mem_insert_self a s'
    by_cases hfa : f a ∈ s'.image f
    · obtain ⟨b, hb, hba⟩ := Finset.mem_image.1 hfa
      have hha : h a ∈ s'.image h := by
        refine Finset.mem_image.2 ⟨b, hb, ?_⟩
        exact (hker b (Finset.mem_insert_of_mem hb) a hmem).1 hba
      rw [Finset.insert_eq_self.2 hfa, Finset.insert_eq_self.2 hha]
      exact ih (fun x hx y hy => hker x (Finset.mem_insert_of_mem hx) y
        (Finset.mem_insert_of_mem hy))
        (fun x hx => hval x (Finset.mem_insert_of_mem hx))
    · have hha : h a ∉ s'.image h := by
        intro hc
        obtain ⟨b, hb, hba⟩ := Finset.mem_image.1 hc
        exact hfa (Finset.mem_image.2 ⟨b, hb,
          (hker b (Finset.mem_insert_of_mem hb) a hmem).2 hba⟩)
      rw [Finset.sum_insert hfa, Finset.sum_insert hha, hval a hmem,
        ih (fun x hx y hy => hker x (Finset.mem_insert_of_mem hx) y
          (Finset.mem_insert_of_mem hy))
        (fun x hx => hval x (Finset.mem_insert_of_mem hx))]

lemma labelVals_filter_eq (g : Grid) :
    ((labelVals g).filter fun l => minArea ≤ regionArea g l)
      = (g.fgSet.filter fun p => minArea ≤ (comp g p).card).image (label g) := by
  ext l
  simp only [Finset.mem_filter, labelVals, Finset.mem_image]
  constructor
  · rintro ⟨⟨p, hp, rfl⟩, hbig⟩
    have hfg := (mem_fgSet g p).1 hp
    refine ⟨p, ⟨hp, ?_⟩, rfl⟩
    rwa [regionArea_label hfg] at hbig
  · rintro ⟨p, ⟨hp, hbig⟩, rfl⟩
    have hfg := (mem_fgSet g p).1 hp
    exact ⟨⟨p, hp, rfl⟩, by rw [regionArea_label hfg]; exact hbig⟩

lemma myotubeCount_eq_bigComps_card (g : Grid) :
    myotubeCount g = (bigComps g).card := by
  unfold myotubeCount bigComps
  rw [labelVals_filter_eq, Finset.card_eq_sum_ones, Finset.card_eq_sum_ones]
  refine sum_image_congr ?_ ?_
  · intro a ha b hb
    have hfa := (mem_fgSet g a).1 (Finset.mem_of_mem_filter a ha)
    have hfb := (mem_fgSet g b).1 (Finset.mem_of_mem_filter b hb)
    exact label_eq_iff hfa hfb
  · intro a _
    rfl

lemma totalMyotubeArea_eq_bigComps_sum (g : Grid) :
    totalMyotubeArea g = ∑ c ∈ bigComps g, c.card := by
  unfold totalMyotubeArea bigComps
  rw [labelVals_filter_eq]
  refine sum_image_congr ?_ ?_
  · intro a ha b hb
    have hfa := (mem_fgSet g a).1 (Finset.mem_of_mem_filter a ha)
    have hfb := (mem_fgSet g b).1 (Finset.mem_of_mem_filter b hb)
    exact label_eq_iff hfa hfb
  · intro a ha
    exact regionArea_label ((mem_fgSet g a).1 (Finset.mem_of_mem_filter a ha))

/-! ### Idempotence of the area filter -/

lemma areaFilter_reaches_iff {g : Grid} {p : Pos} (hfg : g.get p ≠ 0)
    (hbig : minArea ≤ (comp g p).card) (q : Pos) :
    Reaches (areaFilter g) p q ↔ Reaches g p q := by
  have hppos := mem_positions_of_get_ne_zero hfg
  constructor
  · intro h
    induction h with
    | refl => exact Relation.ReflTransGen.refl
    | tail hab hbc ih =>
      exact Relation.ReflTransGen.tail ih
        ⟨((areaFilter_fg g _).1 hbc.1).1, hbc.2⟩
  · intro h
    induction h with
    | refl => exact Relation.ReflTransGen.refl
    | tail hab hbc ih =>
      rename_i b c
      have hc : c ∈ comp g p :=
        mem_comp_of_reaches g p c hppos (Relation.ReflTransGen.tail hab hbc)
      have hcomp : comp g c = comp g p := (comp_eq_of_mem hfg hc).symm
      have hFc : (areaFilter g).get c ≠ 0 :=
        (areaFilter_fg g c).2 ⟨hbc.1, by rw [hcomp]; exact hbig⟩
      exact Relation.ReflTransGen.tail ih ⟨hFc, hbc.2⟩

lemma comp_areaFilter {g : Grid} {p : Pos} (hfg : g.get p ≠ 0)
    (hbig : minArea ≤ (comp g p).card) :
    comp (areaFilter g) p = comp g p := by
  have hF : (areaFilter g).get p ≠ 0 := (areaFilter_fg g p).2 ⟨hfg, hbig⟩
  ext q
  rw [mem_comp_iff_reaches (areaFilter g) p q (mem_positions_of_get_ne_zero hF),
    mem_comp_iff_reaches g p q (mem_positions_of_get_ne_zero hfg),
    areaFilter_reaches_iff hfg hbig]

lemma bigFg_areaFilter (g : Grid) :
    ((areaFilter g).fgSet.filter fun p =>
        minArea ≤ (comp (areaFilter g) p).card)
      = g.fgSet.filter fun p => minArea ≤ (comp g p).card := by
  ext p
  simp only [Finset.mem_filter, mem_fgSet]
  constructor
  · rintro ⟨h1, _⟩
    exact (areaFilter_fg g p).1 h1
  · rintro ⟨h1, h2⟩
    have hF : (areaFilter g).get p ≠ 0 := (areaFilter_fg g p).2 ⟨h1, h2⟩
    refine ⟨hF, ?_⟩
    rw [comp_areaFilter h1 h2]
    exact h2

lemma areaFilter_idem (g : Grid) : areaFilter (areaFilter g) = areaFilter g := by
  have h1 : areaFilter (areaFilter g) = g.pointwise fun p =>
      if (measureLabel (areaFilter g)).get p ≠ 0 ∧
          minArea ≤ regionArea (areaFilter g)
            ((measureLabel (areaFilter g)).get p)
      then 255 else 0 :=
    pointwise_pointwise g _ _
  have h2 : (g.pointwise fun p =>
      if (measureLabel (areaFilter g)).get p ≠ 0 ∧
          minArea ≤ regionArea (areaFilter g)
            ((measureLabel (areaFilter g)).get p)
      then 255 else 0) = g.pointwise fun p =>
      if (measureLabel g).get p ≠ 0 ∧
          minArea ≤ regionArea g ((measureLabel g).get p)
      then 255 else 0 := by
    refine pointwise_congr g _ _ ?_
    intro p _
    have hiff : ((measureLabel (areaFilter g)).get p ≠ 0 ∧
        minArea ≤ regionArea (areaFilter g)
          ((measureLabel (areaFilter g)).get p)) ↔
        ((measureLabel g).get p ≠ 0 ∧
        minArea ≤ regionArea g ((measureLabel g).get p)) := by
      rw [measureLabel_get, measureLabel_get]
      constructor
      · rintro ⟨ha, hb⟩
        have hFfg : (areaFilter g).get p ≠ 0 :=
          fun h0 => ha ((label_eq_zero_iff _ p).2 h0)
        obtain ⟨hfg, hbig⟩ := (areaFilter_fg g p).1 hFfg
        refine ⟨fun h0 => hfg ((label_eq_zero_iff g p).1 h0), ?_⟩
        rw [regionArea_label hfg]
        exact hbig
      · rintro ⟨ha, hb⟩
        have hfg : g.get p ≠ 0 := fun h0 => ha ((label_eq_zero_iff g p).2 h0)
        rw [regionArea_label hfg] at hb
        have hFfg : (areaFilter g).get p ≠ 0 :=
          (areaFilter_fg g p).2 ⟨hfg, hb⟩
        refine ⟨fun h0 => hFfg ((label_eq_zero_iff _ p).1 h0), ?_⟩
        rw [regionArea_label hFfg, comp_areaFilter hfg hb]
        exact hb
    rw [if_congr hiff rfl rfl]
  rw [h1, h2]
  rfl

lemma myotubeCount_areaFilter (g : Grid) :
    myotubeCount (areaFilter g) = myotubeCount g := by
  unfold myotubeCount
  rw [labelVals_filter_eq, labelVals_filter_eq, bigFg_areaFilter,
    Finset.card_eq_sum_ones, Finset.card_eq_sum_ones]
  refine sum_image_congr ?_ fun a _ => rfl
  intro a ha b hb
  have h2a := Finset.mem_filter.1 ha
  have h2b := Finset.mem_filter.1 hb
  have hfa := (mem_fgSet g a).1 h2a.1
  have hfb := (mem_fgSet g b).1 h2b.1
  have hFa : (areaFilter g).get a ≠ 0 := (areaFilter_fg g a).2 ⟨hfa, h2a.2⟩
  have hFb : (areaFilter g).get b ≠ 0 := (areaFilter_fg g b).2 ⟨hfb, h2b.2⟩
  rw [label_eq_iff hFa hFb, label_eq_iff hfa hfb,
    comp_areaFilter hfa h2a.2, comp_areaFilter hfb h2b.2]

lemma totalMyotubeArea_areaFilter (g : Grid) :
    totalMyotubeArea (areaFilter g) = totalMyotubeArea g := by
  unfold totalMyotubeArea
  rw [labelVals_filter_eq, labelVals_filter_eq, bigFg_areaFilter]
  refine sum_image_congr ?_ ?_
  · intro a ha b hb
    have h2a := Finset.mem_filter.1 ha
    have h2b := Finset.mem_filter.1 hb
    have hfa := (mem_fgSet g a).1 h2a.1
    have hfb := (mem_fgSet g b).1 h2b.1
    have hFa : (areaFilter g).get a ≠ 0 := (areaFilter_fg g a).2 ⟨hfa, h2a.2⟩
    have hFb : (areaFilter g).get b ≠ 0 := (areaFilter_fg g b).2 ⟨hfb, h2b.2⟩
    rw [label_eq_iff hFa hFb, label_eq_iff hfa hfb,
      comp_areaFilter hfa h2a.2, comp_areaFilter hfb h2b.2]
  · intro a ha
    have h2a := Finset.mem_filter.1 ha
    have hfa := (mem_fgSet g a).1 h2a.1
    have hFa : (areaFilter g).get a ≠ 0 := (areaFilter_fg g a).2 ⟨hfa, h2a.2⟩
    rw [regionArea_label hFa, regionArea_label hfa,
      comp_areaFilter hfa h2a.2]

/-! ### The nuclei–myotube relationship analyzer

`nuclei_myotube_relationship.py` lines 59–92.  For every positive label of
the nuclei label map the code builds the 0/1 mask `nuclei_labels ==
nucleus_label`, takes `regionprops(...)  [0]` — the region of the first
raster-encountered connected component of that mask — computes its centroid
(a pair of rational means, floats in the source), truncates it with `int()`,
and tests the myotube mask there, guarded only by the two upper bounds. -/

/-- `np.unique(nuclei_labels)` (sorted ascending) filtered to positive values
(`unique_nuclei[unique_nuclei > 0]`). -/
def uniqueNuclei (L : Grid) : List Nat :=
  List.insertionSort (fun a b => a ≤ b) (L.entries.dedup.filter fun v => 0 < v)

/-- Raster-ordered coordinates of the pixels carrying label `l`. -/
def nucleusCoords (L : Grid) (l : Nat) : List Pos :=
  L.raster.filter fun p => L.get p = l

/-- The 0/1 mask `nuclei_labels == nucleus_label` (cast to int). -/
def nucleusMask (L : Grid) (l : Nat) : Grid :=
  L.pointwise fun p => if L.get p = l then 1 else 0

/-- `measure.regionprops(nucleus_mask)[0]`: the region of the component of
the first raster pixel of the mask (that component receives label 1). -/
def nucleusRegion (L : Grid) (l : Nat) : Finset Pos :=
  (((nucleusCoords L l).head?).map fun p => comp (nucleusMask L l) p).getD ∅

/-- `regionprops` centroid of a pixel set: the coordinatewise mean,
`(row mean, column mean)`, as exact rationals (floats in the source). -/
def centroidOf (s : Finset Pos) : ℚ × ℚ :=
  ((∑ p ∈ s, (p.1 : ℚ)) / s.card, (∑ p ∈ s, (p.2 : ℚ)) / s.card)

/-- Python `int()`: truncation toward zero (equal to the floor on the
nonnegative rationals that actually arise as centroid coordinates). -/
def pyInt (q : ℚ) : ℤ := if q < 0 then -((-q).floor) else q.floor

/-- Python list/array indexing: a negative index wraps by the axis length
(the source never exercises this branch — claim C10). -/
def pyIdx (n : Nat) (i : ℤ) : Nat := (if i < 0 then i + n else i).toNat

/-- The loop body's test at a centroid `c`:
`y < mask.shape[0] and x < mask.shape[1] and myotube_mask[y, x] > 0`
with `y, x = int(c[0]), int(c[1])`.  Only the upper bounds are checked. -/
def nucleusFlag (M : Grid) (c : ℚ × ℚ) : Bool :=
  decide (pyInt c.1 < (M.H : ℤ)) && decide (pyInt c.2 < (M.W : ℤ)) &&
    decide (0 < M.get (pyIdx M.H (pyInt c.1), pyIdx M.W (pyInt c.2)))

/-- The relationship metrics accumulated by the analyzer loop. -/
structure RelResult where
  nuclei_within_myotubes : Nat
  nuclei_outside_myotubes : Nat
  nuclei_centroids : List (ℚ × ℚ)
  nuclei_in_myotube : List Bool
  deriving DecidableEq

/-- The analyzer loop of `analyze_nuclei_myotube_relationship`: one record per
positive nucleus label (appended only under the `if nucleus_props:` guard,
i.e. when the label's mask is nonempty); the counters tally the flags. -/
def analyzeRel (L M : Grid) : RelResult :=
  let recs := (uniqueNuclei L).filterMap fun l =>
    if nucleusCoords L l = [] then none
    else
      let c := centroidOf (nucleusRegion L l)
      some (c, nucleusFlag M c)
  { nuclei_within_myotubes := (recs.map Prod.snd).count true
    nuclei_outside_myotubes := (recs.map Prod.snd).count false
    nuclei_centroids := recs.map Prod.fst
    nuclei_in_myotube := recs.map Prod.snd }

/-- `total_nuclei = nuclei_within_myotubes + nuclei_outside_myotubes`. -/
def totalNuclei (r : RelResult) : Nat :=
  r.nuclei_within_myotubes + r.nuclei_outside_myotubes

/-- `percentage_within_myotubes = (within / total) * 100 if total > 0 else 0`
(the guard in the source; float division modelled by exact `ℚ` division). -/
def percentageWithin (r : RelResult) : ℚ :=
  if 0 < totalNuclei r
  then ((r.nuclei_within_myotubes : ℚ) / (totalNuclei r : ℚ)) * 100
  else 0

/-- `nuclei_count = np.max(labels)` from `detect_nuclei` (line 83). -/
def nucleiCountOf (L : Grid) : Nat := L.maxVal

section AnalyzerLemmas

lemma row_eq_getElem (g : Grid) (y : Nat) (hy : y < g.length) :
    g.row y = g[y] := by
  unfold Grid.row
  rw [List.getD_eq_getElem?_getD, List.getElem?_eq_getElem hy]
  rfl

lemma get_eq_getElem (g : Grid) (p : Pos) (hx : p.2 < (g.row p.1).length) :
    g.get p = (g.row p.1)[p.2] := by
  unfold Grid.get
  rw [List.getD_eq_getElem?_getD, List.getElem?_eq_getElem hx]
  rfl

lemma mem_entries_iff (g : Grid) (v : Nat) :
    v ∈ g.entries ↔ ∃ p ∈ g.positions, g.get p = v := by
  unfold Grid.entries
  rw [List.mem_flatten]
  constructor
  · rintro ⟨r, hr, hv⟩
    obtain ⟨y, hy, hrow⟩ := List.mem_iff_getElem.1 hr
    obtain ⟨x, hx, hvx⟩ := List.mem_iff_getElem.1 hv
    have hrowD : g.row y = r := by rw [row_eq_getElem g y hy, hrow]
    refine ⟨(y, x), (mem_positions_iff g (y, x)).2 ⟨hy, ?_⟩, ?_⟩
    · rw [hrowD]
      exact hx
    · show (g.row y).getD x 0 = v
      rw [hrowD, List.getD_eq_getElem?_getD, List.getElem?_eq_getElem hx]
      exact hvx
  · rintro ⟨p, hp, hv⟩
    obtain ⟨hy, hx⟩ := (mem_positions_iff g p).1 hp
    refine ⟨g.row p.1, ?_, ?_⟩
    · rw [row_eq_getElem g p.1 hy]
      exact List.getElem_mem hy
    · rw [← hv, get_eq_getElem g p hx]
      exact List.getElem_mem hx

lemma mem_raster_iff (g : Grid) (p : Pos) : p ∈ g.raster ↔ p ∈ g.positions := by
  unfold Grid.raster
  rw [List.mem_flatMap, mem_positions_iff]
  constructor
  · rintro ⟨y, hy, hp⟩
    rw [List.mem_range] at hy
    obtain ⟨x, hx, he⟩ := List.mem_map.1 hp
    rw [List.mem_range] at hx
    cases he
    exact ⟨hy, hx⟩
  · rintro ⟨hy, hx⟩
    exact ⟨p.1, List.mem_range.2 hy,
      List.mem_map.2 ⟨p.2, List.mem_range.2 hx, rfl⟩⟩

lemma le_maxVal_of_mem {g : Grid} {v : Nat} (h : v ∈ g.entries) :
    v ≤ g.maxVal := le_foldr_max h

lemma mem_uniqueNuclei_iff (L : Grid) (l : Nat) :
    l ∈ uniqueNuclei L ↔ 0 < l ∧ ∃ p ∈ L.positions, L.get p = l := by
  unfold uniqueNuclei
  rw [List.Perm.mem_iff (List.perm_insertionSort _ _)]
  constructor
  · intro h
    have h2 := List.mem_filter.1 h
    exact ⟨of_decide_eq_true h2.2,
      (mem_entries_iff L l).1 (List.mem_dedup.1 h2.1)⟩
  · rintro ⟨hpos, hp⟩
    exact List.mem_filter.2 ⟨List.mem_dedup.2 ((mem_entries_iff L l).2 hp),
      decide_eq_true hpos⟩

lemma nucleusCoords_ne_nil {L : Grid} {l : Nat} (h : l ∈ uniqueNuclei L) :
    nucleusCoords L l ≠ [] := by
  obtain ⟨hpos, p, hp, hget⟩ := (mem_uniqueNuclei_iff L l).1 h
  intro hnil
  have hmem : p ∈ nucleusCoords L l :=
    List.mem_filter.2 ⟨(mem_raster_iff L p).2 hp, decide_eq_true hget⟩
  rw [hnil] at hmem
  cases hmem

lemma filterMap_eq_map_of_mem {α β : Type _} (l : List α) (f : α → Option β)
    (gm : α → β) (h : ∀ a ∈ l, f a = some (gm a)) :
    l.filterMap f = l.map gm := by
  induction l with
  | nil => rfl
  | cons a t ih =>
    rw [List.filterMap_cons, h a (List.mem_cons_self a t), List.map_cons,
      ih fun b hb => h b (List.mem_cons_of_mem a hb)]

lemma analyzeRel_in_myotube (L M : Grid) :
    (analyzeRel L M).nuclei_in_myotube =
      (uniqueNuclei L).map fun l =>
        nucleusFlag M (centroidOf (nucleusRegion L l)) := by
  show ((uniqueNuclei L).filterMap fun l =>
      if nucleusCoords L l = [] then none
      else
        let c := centroidOf (nucleusRegion L l)
        some (c, nucleusFlag M c)).map Prod.snd = _
  rw [filterMap_eq_map_of_mem (uniqueNuclei L) _
    (fun l => (centroidOf (nucleusRegion L l),
      nucleusFlag M (centroidOf (nucleusRegion L l))))
    (fun l hl => by rw [if_neg (nucleusCoords_ne_nil hl)]),
    List.map_map]
  rfl

lemma analyzeRel_centroids (L M : Grid) :
    (analyzeRel L M).nuclei_centroids =
      (uniqueNuclei L).map fun l => centroidOf (nucleusRegion L l) := by
  show ((uniqueNuclei L).filterMap fun l =>
      if nucleusCoords L l = [] then none
      else
        let c := centroidOf (nucleusRegion L l)
        some (c, nucleusFlag M c)).map Prod.fst = _
  rw [filterMap_eq_map_of_mem (uniqueNuclei L) _
    (fun l => (centroidOf (nucleusRegion L l),
      nucleusFlag M (centroidOf (nucleusRegion L l))))
    (fun l hl => by rw [if_neg (nucleusCoords_ne_nil hl)]),
    List.map_map]
  rfl

lemma count_true_add_count_false (l : List Bool) :
    l.count true + l.count false = l.length := by
  induction l with
  | nil => rfl
  | cons b t ih =>
    cases b <;> simp [List.count_cons] <;> omega

lemma within_add_outside_eq_length (L M : Grid) :
    (analyzeRel L M).nuclei_within_myotubes +
      (analyzeRel L M).nuclei_outside_myotubes =
      (analyzeRel L M).nuclei_in_myotube.length :=
  count_true_add_count_false _

lemma uniqueNuclei_length (L : Grid)
    (hdense : ∀ k, 0 < k → k ≤ L.maxVal → ∃ p, L.get p = k) :
    (uniqueNuclei L).length = L.maxVal := by
  unfold uniqueNuclei
  rw [(List.perm_insertionSort _ _).length_eq]
  have hnodup : (L.entries.dedup.filter fun v => decide (0 < v)).Nodup :=
    (List.nodup_dedup L.entries).filter _
  rw [← List.toFinset_card_of_nodup hnodup]
  have hset : (L.entries.dedup.filter fun v => decide (0 < v)).toFinset
      = Finset.Icc 1 L.maxVal := by
    ext k
    rw [List.mem_toFinset, List.mem_filter, Finset.mem_Icc]
    constructor
    · rintro ⟨hmem, hk⟩
      exact ⟨of_decide_eq_true hk,
        le_maxVal_of_mem (List.mem_dedup.1 hmem)⟩
    · rintro ⟨h1, h2⟩
      obtain ⟨p, hp⟩ := hdense k h1 h2
      have hpos : p ∈ L.positions :=
        mem_positions_of_get_ne_zero (by rw [hp]; omega)
      exact ⟨List.mem_dedup.2 ((mem_entries_iff L k).2 ⟨p, hpos, hp⟩),
        decide_eq_true h1⟩
  rw [hset, Nat.card_Icc]
  omega

end AnalyzerLemmas

/-! ### The nuclei-detection pipeline (`nuclei_detection.py` lines 40–83)

blur → Otsu binarisation → erode → dilate → distance transform →
normalisation → local maxima → marker labelling → watershed → `np.max`. -/

/-- `BORDER_REFLECT_101` index reflection, cv2's default blur border
(`dcb|abcd|cba`): reflect without repeating the edge pixel. -/
def reflect101 (n : Nat) (i : ℤ) : Nat :=
  if n ≤ 1 then 0
  else
    let m : ℤ := 2 * n - 2
    let j := ((i % m) + m) % m
    (if (n : ℤ) ≤ j then m - j else j).toNat

/-- The 5-tap binomial kernel `[1,4,6,4,1]/16` cv2 uses for a 5×5 Gaussian
with unspecified sigma (its `small_gaussian_tab`). -/
def gauss5 : List Nat := [1, 4, 6, 4, 1]

/-- `cv2.GaussianBlur(channel, (5, 5), 0)`: separable binomial smoothing with
reflected borders; the final /256 rounds to nearest as cv2's fixed-point
`uint8` path does. -/
def gaussianBlur5 (g : Grid) : Grid :=
  g.pointwise fun p =>
    ((((List.range 5).flatMap fun dy => (List.range 5).map fun dx =>
      gauss5.getD dy 0 * gauss5.getD dx 0 *
        g.get (reflect101 g.H ((p.1 : ℤ) + dy - 2),
          reflect101 (g.row (reflect101 g.H ((p.1 : ℤ) + dy - 2))).length
            ((p.2 : ℤ) + dx - 2))).sum) + 128) / 256

/-- Histogram of a `uint8` image. -/
def histo (g : Grid) (i : Nat) : Nat := g.entries.count i

/-- Between-class variance of the split at threshold `t` (foreground strictly
above `t`), the quantity Otsu's method maximises; degenerate splits score 0
exactly as cv2's epsilon guard skips them.  cv2 computes this in double
precision; we use exact rationals. -/
def otsuScore (g : Grid) (t : Nat) : ℚ :=
  let w0 : ℚ := ∑ i ∈ Finset.range (t + 1), (histo g i : ℚ)
  let w1 : ℚ := (g.entries.length : ℚ) - w0
  let m0 : ℚ := ∑ i ∈ Finset.range (t + 1), (i : ℚ) * (histo g i : ℚ)
  let m1 : ℚ := (∑ i ∈ Finset.range 256, (i : ℚ) * (histo g i : ℚ)) - m0
  if w0 = 0 ∨ w1 = 0 then 0
  else w0 * w1 * (m0 / w0 - m1 / w1) ^ 2

/-- `cv2.threshold(blurred, 0, 255, THRESH_BINARY + THRESH_OTSU)` threshold
selection: the first maximiser of the between-class variance over 0..255
(cv2's scan only replaces the incumbent on strict improvement). -/
def otsuThreshold (g : Grid) : Nat :=
  (List.range 256).foldl
    (fun best t => if otsuScore g best < otsuScore g t then t else best) 0

/-- `THRESH_BINARY` at threshold `t`: values strictly above `t` become 255. -/
def threshBinary (t : Nat) (g : Grid) : Grid :=
  g.pointwise fun p => if t < g.get p then 255 else 0

/-- All in-bounds positions within Chebyshev distance `r` of `p`. -/
def clipWindow (g : Grid) (p : Pos) (r : Nat) : List Pos :=
  (List.range (2 * r + 1)).flatMap fun dy =>
    (List.range (2 * r + 1)).filterMap fun dx =>
      let y := (p.1 : ℤ) + dy - r
      let x := (p.2 : ℤ) + dx - r
      if 0 ≤ y ∧ 0 ≤ x ∧ y.toNat < g.H ∧ x.toNat < (g.row y.toNat).length
      then some (y.toNat, x.toNat) else none

/-- `cv2.erode` with `np.ones((3, 3))`: the minimum over the in-bounds part
of the 3×3 window (cv2's constant `+∞` border value makes out-of-range
neighbours neutral). -/
def erode3 (g : Grid) : Grid :=
  g.pointwise fun p => ((clipWindow g p 1).map g.get).foldr min (g.get p)

/-- `cv2.dilate` with `np.ones((3, 3))`: the maximum over the in-bounds part
of the 3×3 window. -/
def dilate3 (g : Grid) : Grid :=
  g.pointwise fun p => ((clipWindow g p 1).map g.get).foldr max (g.get p)

/-- Squared Euclidean distance of two positions. -/
def sqDist (p q : Pos) : Nat :=
  (((p.1 : ℤ) - q.1) ^ 2 + ((p.2 : ℤ) - q.2) ^ 2).toNat

/-- `cv2.distanceTransform(dilated, DIST_L2, 5)`: distance of each foreground
pixel to the nearest background pixel, 0 on background.  cv2 computes a
floating-point chamfer approximation to the Euclidean distance; we record the
exact squared Euclidean distance instead - a strictly monotone recoding with
the identical zero set, which is all any property stated below observes. -/
def distSq (g : Grid) : Grid :=
  g.pointwise fun p =>
    if g.get p = 0 then 0
    else (g.positions.filter fun q => g.get q = 0).fold min
      ((g.H + g.maxRowLen) ^ 2 + 1) (sqDist p)

/-- Rational-valued grids (the float images of the source: the normalised
distance map and the negated watershed priority). -/
abbrev QGrid := List (List ℚ)

/-- Pixel read of a rational grid, 0 out of range. -/
def QGrid.get (d : QGrid) (p : Pos) : ℚ := (d.getD p.1 []).getD p.2 0

/-- Build a rational grid of the same shape as `g`. -/
def Grid.pointwiseQ (g : Grid) (f : Pos → ℚ) : QGrid :=
  (List.range g.length).map fun y =>
    (List.range (g.row y).length).map fun x => f (y, x)

/-- `cv2.normalize(dist, dist, 0, 1.0, NORM_MINMAX)`: affine rescale onto
[0, 1]; cv2's epsilon guard sends a constant image to all zeros. -/
def normalizeMinMax (g : Grid) : QGrid :=
  let mn := g.entries.foldr min (g.entries.headD 0)
  let mx := g.entries.foldr max (g.entries.headD 0)
  g.pointwiseQ fun p =>
    if mx = mn then 0 else ((g.get p : ℚ) - (mn : ℚ)) / ((mx : ℚ) - (mn : ℚ))

/-- `skimage.feature.peak_local_max(dist, min_distance=7, labels=dilated)`:
candidates are pixels carrying a positive label whose value is maximal over
their `(2*min_distance+1)`-square neighbourhood, kept greedily in decreasing-
value order subject to the minimum pairwise spacing.  (skimage resolves exact
ties by array order and measures the spacing Euclidean-ly; no property stated
below depends on peak placement, only on every returned coordinate carrying a
positive label.) -/
def peakLocalMax (d : QGrid) (minDist : Nat) (labels : Grid) : List Pos :=
  let cands := labels.raster.filter fun p =>
    decide (labels.get p ≠ 0) &&
      ((clipWindow labels p minDist).all fun q =>
        decide (d.get q ≤ d.get p))
  let sorted := List.insertionSort (fun p q => d.get q ≤ d.get p) cands
  sorted.foldl (fun kept p =>
    if kept.all fun q =>
        decide (minDist < max ((p.1 : ℤ) - q.1).natAbs ((p.2 : ℤ) - q.2).natAbs)
    then kept ++ [p] else kept) []

/-- The boolean `local_max` image: `True` exactly at the returned peak
coordinates (`local_max[coord] = True` loop, lines 70–75). -/
def localMaxGrid (shape : Grid) (peaks : List Pos) : Grid :=
  shape.pointwise fun p => if p ∈ peaks then 1 else 0

/-- 4-neighbours of a position (skimage watershed's default connectivity 1). -/
def wsNbrs (p : Pos) : List Pos :=
  [(p.1 + 1, p.2), (p.1, p.2 + 1)] ++
    (if 0 < p.1 then [(p.1 - 1, p.2)] else []) ++
    (if 0 < p.2 then [(p.1, p.2 - 1)] else [])

/-- The initial watershed state: markers restricted to the mask, everything
else unlabelled. -/
def wsInit (markers mask : Grid) : Grid :=
  mask.pointwise fun p => if mask.get p ≠ 0 then markers.get p else 0

/-- One growth round of the watershed flood: every still-unlabelled mask
pixel with a labelled 4-neighbour adopts the label of its smallest-priority
labelled neighbour. -/
def wsStep (pr : QGrid) (mask : Grid) (cur : Grid) : Grid :=
  cur.pointwise fun p =>
    if cur.get p = 0 ∧ mask.get p ≠ 0 then
      match (wsNbrs p).filter fun q => decide (cur.get q ≠ 0) with
      | [] => 0
      | q :: rest =>
          cur.get ((q :: rest).foldl
            (fun b r => if QGrid.get pr r < QGrid.get pr b then r else b) q)
    else cur.get p

/-- `skimage.segmentation.watershed(-dist_transform, markers, mask=dilated)`:
flood the priority surface from the markers, labelling only mask pixels.
(skimage floods through one global priority queue; the round-based flood here
can place contested basin boundaries differently, which no stated property
observes - all stated properties concern only the labelled support.) -/
def watershed (pr : QGrid) (markers mask : Grid) : Grid :=
  (wsStep pr mask)^[mask.entries.length] (wsInit markers mask)

/-- Negation of a rational grid (`-dist_transform`). -/
def negQ (d : QGrid) : QGrid := d.map (List.map Neg.neg)

/-- Stage: `blurred = cv2.GaussianBlur(blue_channel, (5, 5), 0)`. -/
def nucleiBlurred (channel : Grid) : Grid := gaussianBlur5 channel

/-- Stage: Otsu binarisation of the blurred nuclei channel. -/
def nucleiBinary (channel : Grid) : Grid :=
  threshBinary (otsuThreshold (nucleiBlurred channel)) (nucleiBlurred channel)

/-- Stage: `eroded = cv2.erode(binary, kernel, iterations=1)`. -/
def nucleiEroded (channel : Grid) : Grid := erode3 (nucleiBinary channel)

/-- Stage: `dilated = cv2.dilate(eroded, kernel, iterations=1)`. -/
def nucleiDilated (channel : Grid) : Grid := dilate3 (nucleiEroded channel)

/-- Stage: normalised distance transform of the cleaned binary mask. -/
def nucleiNormDist (channel : Grid) : QGrid :=
  normalizeMinMax (distSq (nucleiDilated channel))

/-- Stage: watershed markers, `coordinates = feature.peak_local_max(...)`. -/
def nucleiPeaks (channel : Grid) : List Pos :=
  peakLocalMax (nucleiNormDist channel) 7 (nucleiDilated channel)

/-- Stage: `markers = measure.label(local_max)`. -/
def nucleiMarkers (channel : Grid) : Grid :=
  measureLabel (localMaxGrid (nucleiDilated channel) (nucleiPeaks channel))

/-- The final label map `labels = segmentation.watershed(-dist_transform,
markers, mask=dilated)`. -/
def detectNucleiLabels (channel : Grid) : Grid :=
  watershed (negQ (nucleiNormDist channel)) (nucleiMarkers channel)
    (nucleiDilated channel)

/-! ### Myotube area percentage (`myotube_detection.py` lines 87–88) -/

/-- `image_area = image_rgb.shape[0] * image_rgb.shape[1]` followed by
`myotube_area_percentage = (total_myotube_area / image_area) * 100`: the
division carries no zero guard, so a zero-area image raises Python's
`ZeroDivisionError`, modelled by `none`; the float quotient is modelled by
the exact rational. -/
def myotubeAreaPercentage (totalArea hgt wid : Nat) : Option ℚ :=
  if hgt * wid = 0 then none
  else some ((totalArea : ℚ) / ((hgt * wid : Nat) : ℚ) * 100)

/-! ### Image loading and channel extraction
(`myotube_detection.py` / `nuclei_detection.py` lines 35–43) -/

/-- A decoded multi-channel image as numpy sees it: a shape plus a pixel
accessor (`img[y, x, c]`). -/
structure Img where
  hgt : Nat
  wid : Nat
  channels : Nat
  pix : Nat → Nat → Nat → Nat

/-- The Python-level errors these lines can raise. -/
inductive PyErr where
  | valueError
  | indexError
  deriving DecidableEq

/-- `image = cv2.imread(image_path)` followed by
`if image is None: raise ValueError(...)`: the only explicit validation. -/
def loadImage (decoded : Option Img) : Except PyErr Img :=
  match decoded with
  | none => .error .valueError
  | some img => .ok img

/-- `image_rgb[:, :, c]`: numpy raises `IndexError` exactly when the channel
index is out of range for axis 2 (it does so even when the row/column axes
are empty, and conversely succeeds on empty axes when the channel exists,
returning an empty `H×W` grid). -/
def extractChannel (img : Img) (c : Nat) : Except PyErr Grid :=
  if c < img.channels
  then .ok ((Grid.zero img.hgt img.wid).pointwise fun p => img.pix p.1 p.2 c)
  else .error .indexError

/-- Modelled from the spec (§4.7), for comparison with the code's behaviour:
"classify it as within myotube if the mask value at the centroid's
nearest-integer pixel coordinate is foreground, else outside", with
out-of-bounds rounded coordinates classified outside. -/
def specNearestFlag (M : Grid) (c : ℚ × ℚ) : Bool :=
  decide (0 ≤ round c.1) && decide (round c.1 < (M.H : ℤ)) &&
    decide (0 ≤ round c.2) && decide (round c.2 < (M.W : ℤ)) &&
    decide (0 < M.get ((round c.1).toNat, (round c.2).toNat))

/-! ### Behaviour of the nuclei pipeline on an all-zero channel -/

/-- Every pixel of the grid reads zero. -/
def AllZero (g : Grid) : Prop := ∀ p, g.get p = 0

lemma allZero_pointwise (g : Grid) (f : Pos → Nat)
    (h : ∀ p ∈ g.positions, f p = 0) : AllZero (g.pointwise f) := by
  intro p
  rw [pointwise_get]
  by_cases hp : p ∈ g.positions
  · rw [if_pos hp]
    exact h p hp
  · rw [if_neg hp]

lemma blur_sum_zero {g : Grid} (h : AllZero g) (p : Pos) :
    ((List.range 5).flatMap fun dy => (List.range 5).map fun dx =>
      gauss5.getD dy 0 * gauss5.getD dx 0 *
        g.get (reflect101 g.H ((p.1 : ℤ) + dy - 2),
          reflect101 (g.row (reflect101 g.H ((p.1 : ℤ) + dy - 2))).length
            ((p.2 : ℤ) + dx - 2))).sum = 0 := by
  apply List.sum_eq_zero
  intro x hx
  rw [List.mem_flatMap] at hx
  obtain ⟨dy, _, hx⟩ := hx
  rw [List.mem_map] at hx
  obtain ⟨dx, _, rfl⟩ := hx
  rw [h _, Nat.mul_zero]

lemma gaussianBlur5_allZero {g : Grid} (h : AllZero g) :
    AllZero (gaussianBlur5 g) := by
  unfold gaussianBlur5
  apply allZero_pointwise
  intro p _
  rw [blur_sum_zero h p]

lemma threshBinary_allZero (t : Nat) {g : Grid} (h : AllZero g) :
    AllZero (threshBinary t g) := by
  unfold threshBinary
  apply allZero_pointwise
  intro p _
  rw [h p]
  simp

lemma foldr_min_zero {l : List Nat} (h : ∀ x ∈ l, x = 0) :
    l.foldr min 0 = 0 := by
  induction l with
  | nil => rfl
  | cons a t ih =>
    rw [List.foldr_cons, h a (List.mem_cons_self a t),
      ih fun x hx => h x (List.mem_cons_of_mem a hx)]
    rfl

lemma foldr_max_zero {l : List Nat} (h : ∀ x ∈ l, x = 0) :
    l.foldr max 0 = 0 := by
  induction l with
  | nil => rfl
  | cons a t ih =>
    rw [List.foldr_cons, h a (List.mem_cons_self a t),
      ih fun x hx => h x (List.mem_cons_of_mem a hx)]
    rfl

lemma erode3_allZero {g : Grid} (h : AllZero g) : AllZero (erode3 g) := by
  unfold erode3
  apply allZero_pointwise
  intro p _
  rw [h p]
  apply foldr_min_zero
  intro x hx
  obtain ⟨q, _, rfl⟩ := List.mem_map.1 hx
  exact h q

lemma dilate3_allZero {g : Grid} (h : AllZero g) : AllZero (dilate3 g) := by
  unfold dilate3
  apply allZero_pointwise
  intro p _
  rw [h p]
  apply foldr_max_zero
  intro x hx
  obtain ⟨q, _, rfl⟩ := List.mem_map.1 hx
  exact h q

lemma distSq_allZero {g : Grid} (h : AllZero g) : AllZero (distSq g) := by
  unfold distSq
  apply allZero_pointwise
  intro p _
  rw [if_pos (h p)]

lemma peakLocalMax_nil (d : QGrid) (m : Nat) {labels : Grid}
    (h : AllZero labels) : peakLocalMax d m labels = [] := by
  unfold peakLocalMax
  have hc : (labels.raster.filter fun p =>
      decide (labels.get p ≠ 0) &&
        ((clipWindow labels p m).all fun q =>
          decide (QGrid.get d q ≤ QGrid.get d p))) = [] := by
    rw [List.filter_eq_nil_iff]
    intro p _
    simp [h p]
  rw [hc]
  rfl

lemma localMaxGrid_nil_allZero (shape : Grid) :
    AllZero (localMaxGrid shape []) := by
  unfold localMaxGrid
  apply allZero_pointwise
  intro p _
  simp

lemma measureLabel_allZero {g : Grid} (h : AllZero g) :
    AllZero (measureLabel g) := by
  intro p
  rw [measureLabel_get]
  exact (label_eq_zero_iff g p).2 (h p)

lemma wsInit_allZero (markers : Grid) {mask : Grid} (h : AllZero mask) :
    AllZero (wsInit markers mask) := by
  unfold wsInit
  apply allZero_pointwise
  intro p _
  simp [h p]

lemma wsStep_allZero (pr : QGrid) {mask cur : Grid} (hm : AllZero mask)
    (hc : AllZero cur) : AllZero (wsStep pr mask cur) := by
  unfold wsStep
  apply allZero_pointwise
  intro p _
  rw [if_neg]
  · exact hc p
  · rintro ⟨_, h2⟩
    exact h2 (hm p)

lemma watershed_allZero (pr : QGrid) (markers : Grid) {mask : Grid}
    (h : AllZero mask) : AllZero (watershed pr markers mask) := by
  unfold watershed
  generalize mask.entries.length = n
  induction n with
  | zero => simpa using wsInit_allZero markers h
  | succ n ih =>
    rw [Function.iterate_succ_apply']
    exact wsStep_allZero pr h ih

lemma maxVal_allZero {g : Grid} (h : AllZero g) : g.maxVal = 0 := by
  unfold Grid.maxVal
  apply foldr_max_zero
  intro v hv
  obtain ⟨p, _, hv⟩ := (mem_entries_iff g v).1 hv
  rw [← hv]
  exact h p

lemma nucleiBinary_allZero {c : Grid} (h : AllZero c) :
    AllZero (nucleiBinary c) :=
  threshBinary_allZero _ (gaussianBlur5_allZero h)

lemma nucleiDilated_allZero {c : Grid} (h : AllZero c) :
    AllZero (nucleiDilated c) :=
  dilate3_allZero (erode3_allZero (nucleiBinary_allZero h))

lemma nucleiPeaks_nil {c : Grid} (h : AllZero c) : nucleiPeaks c = [] :=
  peakLocalMax_nil _ _ (nucleiDilated_allZero h)

lemma detectNucleiLabels_allZero {c : Grid} (h : AllZero c) :
    AllZero (detectNucleiLabels c) :=
  watershed_allZero _ _ (nucleiDilated_allZero h)


/-! ### Centroid bounds (claims C3 and C10) -/

lemma mem_nucleusCoords_iff (L : Grid) (l : Nat) (p : Pos) :
    p ∈ nucleusCoords L l ↔ p ∈ L.positions ∧ L.get p = l := by
  unfold nucleusCoords
  rw [List.mem_filter, mem_raster_iff]
  constructor
  · rintro ⟨h1, h2⟩
    exact ⟨h1, of_decide_eq_true h2⟩
  · rintro ⟨h1, h2⟩
    exact ⟨h1, decide_eq_true h2⟩

lemma nucleusRegion_eq {L : Grid} {l : Nat} {p0 : Pos}
    (hh : (nucleusCoords L l).head? = some p0) :
    nucleusRegion L l = comp (nucleusMask L l) p0 := by
  unfold nucleusRegion
  rw [hh]
  rfl

lemma nucleusMask_positions (L : Grid) (l : Nat) :
    (nucleusMask L l).positions = L.positions :=
  pointwise_positions _ _

lemma nucleusRegion_subset {L : Grid} {l : Nat} {p0 : Pos}
    (hh : (nucleusCoords L l).head? = some p0) :
    nucleusRegion L l ⊆ L.positions := by
  rw [nucleusRegion_eq hh]
  have hp0 := (mem_nucleusCoords_iff L l p0).1 (List.mem_of_mem_head? hh)
  have hsub := comp_subset_positions (nucleusMask L l) p0
    (by rw [nucleusMask_positions]; exact hp0.1)
  rwa [nucleusMask_positions] at hsub

lemma nucleusRegion_nonempty {L : Grid} {l : Nat} {p0 : Pos}
    (hh : (nucleusCoords L l).head? = some p0) :
    (nucleusRegion L l).Nonempty := by
  rw [nucleusRegion_eq hh]
  exact ⟨p0, mem_comp_self _ p0⟩

lemma head_exists_of_ne_nil {α : Type} {l : List α} (h : l ≠ []) :
    ∃ a, l.head? = some a := by
  cases l with
  | nil => exact absurd rfl h
  | cons a t => exact ⟨a, rfl⟩

lemma mean_bounds {s : Finset Pos} (hne : s.Nonempty) (f : Pos → Nat)
    (B : Nat) (hB : ∀ p ∈ s, f p < B) :
    0 ≤ (∑ p ∈ s, (f p : ℚ)) / (s.card : ℚ) ∧
      (∑ p ∈ s, (f p : ℚ)) / (s.card : ℚ) ≤ (B : ℚ) - 1 := by
  have hcard : 0 < (s.card : ℚ) := by
    have := Finset.card_pos.2 hne
    exact_mod_cast this
  constructor
  · apply div_nonneg _ hcard.le
    apply Finset.sum_nonneg
    intro p _
    exact Nat.cast_nonneg _
  · rw [div_le_iff₀ hcard]
    have hsum : ∑ p ∈ s, (f p : ℚ) ≤ ∑ _p ∈ s, ((B : ℚ) - 1) := by
      apply Finset.sum_le_sum
      intro p hp
      have h2 : (f p : ℚ) + 1 ≤ (B : ℚ) := by
        exact_mod_cast hB p hp
      linarith
    rw [Finset.sum_const, nsmul_eq_mul] at hsum
    linarith

lemma rat_floor_lt_iff {q : ℚ} {z : ℤ} : q.floor < z ↔ q < (z : ℚ) := by
  rw [← not_le, ← not_le, Rat.le_floor]

lemma pyInt_bounds {q : ℚ} {B : Nat} (h0 : 0 ≤ q) (hB : q ≤ (B : ℚ) - 1) :
    0 ≤ pyInt q ∧ pyInt q < (B : ℤ) := by
  unfold pyInt
  rw [if_neg (not_lt.2 h0)]
  constructor
  · exact Rat.le_floor.2 (by exact_mod_cast h0)
  · rw [rat_floor_lt_iff]
    have hBq : ((B : ℤ) : ℚ) = (B : ℚ) := by norm_cast
    rw [hBq]
    linarith

lemma rowLen_eq_W_of_rect {L : Grid} (hrect : L.Rect) {y : Nat}
    (hy : y < L.length) : (L.row y).length = L.W := by
  refine hrect _ ?_
  rw [row_eq_getElem L y hy]
  exact List.getElem_mem hy

lemma centroid_bounds {L : Grid} {l : Nat} (hrect : L.Rect)
    (hl : l ∈ uniqueNuclei L) :
    0 ≤ (centroidOf (nucleusRegion L l)).1 ∧
    (centroidOf (nucleusRegion L l)).1 ≤ (L.H : ℚ) - 1 ∧
    0 ≤ (centroidOf (nucleusRegion L l)).2 ∧
    (centroidOf (nucleusRegion L l)).2 ≤ (L.W : ℚ) - 1 := by
  obtain ⟨p0, hh⟩ := head_exists_of_ne_nil (nucleusCoords_ne_nil hl)
  have hne := nucleusRegion_nonempty hh
  have hsub := nucleusRegion_subset hh
  have hrow : ∀ p ∈ nucleusRegion L l, p.1 < L.H := fun p hp =>
    ((mem_positions_iff L p).1 (hsub hp)).1
  have hcol : ∀ p ∈ nucleusRegion L l, p.2 < L.W := by
    intro p hp
    have h2 := (mem_positions_iff L p).1 (hsub hp)
    rw [← rowLen_eq_W_of_rect hrect h2.1]
    exact h2.2
  obtain ⟨m1, m2⟩ := mean_bounds hne (fun p => p.1) L.H hrow
  obtain ⟨m3, m4⟩ := mean_bounds hne (fun p => p.2) L.W hcol
  exact ⟨m1, m2, m3, m4⟩

lemma nucleusFlag_guard {L M : Grid} {l : Nat} (hrect : L.Rect)
    (hl : l ∈ uniqueNuclei L) (hH : M.H = L.H) (hW : M.W = L.W) :
    0 ≤ pyInt (centroidOf (nucleusRegion L l)).1 ∧
    pyInt (centroidOf (nucleusRegion L l)).1 < (M.H : ℤ) ∧
    0 ≤ pyInt (centroidOf (nucleusRegion L l)).2 ∧
    pyInt (centroidOf (nucleusRegion L l)).2 < (M.W : ℤ) ∧
    nucleusFlag M (centroidOf (nucleusRegion L l)) =
      decide (0 < M.get ((pyInt (centroidOf (nucleusRegion L l)).1).toNat,
        (pyInt (centroidOf (nucleusRegion L l)).2).toNat)) := by
  obtain ⟨c1, c2, c3, c4⟩ := centroid_bounds hrect hl
  obtain ⟨b1, b2⟩ := pyInt_bounds c1
    (show (centroidOf (nucleusRegion L l)).1 ≤ (M.H : ℚ) - 1 by
      rw [hH]; exact c2)
  obtain ⟨b3, b4⟩ := pyInt_bounds c3
    (show (centroidOf (nucleusRegion L l)).2 ≤ (M.W : ℚ) - 1 by
      rw [hW]; exact c4)
  refine ⟨b1, b2, b3, b4, ?_⟩
  unfold nucleusFlag pyIdx
  rw [if_neg (not_lt.2 b1), if_neg (not_lt.2 b3), decide_eq_true b2,
    decide_eq_true b4]
  simp



/-! ### Percentage bounds and extraction helpers -/

lemma nucleusFlag_iff (M : Grid) (c : ℚ × ℚ) :
    nucleusFlag M c = true ↔
      (pyInt c.1 < (M.H : ℤ) ∧ pyInt c.2 < (M.W : ℤ) ∧
        0 < M.get (pyIdx M.H (pyInt c.1), pyIdx M.W (pyInt c.2))) := by
  unfold nucleusFlag
  simp [Bool.and_eq_true, and_assoc]

lemma within_le_total (r : RelResult) :
    r.nuclei_within_myotubes ≤ totalNuclei r :=
  Nat.le_add_right _ _

lemma percentageWithin_nonneg (r : RelResult) : 0 ≤ percentageWithin r := by
  unfold percentageWithin
  split_ifs with h
  · positivity
  · exact le_refl 0

lemma percentageWithin_le_100 (r : RelResult) : percentageWithin r ≤ 100 := by
  unfold percentageWithin
  split_ifs with h
  · have ht : (0 : ℚ) < (totalNuclei r : ℚ) := by exact_mod_cast h
    have hw : (r.nuclei_within_myotubes : ℚ) ≤ (totalNuclei r : ℚ) := by
      exact_mod_cast within_le_total r
    have hdiv : (r.nuclei_within_myotubes : ℚ) / (totalNuclei r : ℚ) ≤ 1 :=
      (div_le_one ht).2 hw
    calc (r.nuclei_within_myotubes : ℚ) / (totalNuclei r : ℚ) * 100
        ≤ 1 * 100 := mul_le_mul_of_nonneg_right hdiv (by norm_num)
      _ = 100 := by norm_num
  · norm_num

/-- Whether a numpy slicing attempt succeeded. -/
def isOkE (e : Except PyErr Grid) : Bool :=
  match e with
  | .ok _ => true
  | .error _ => false



/-! ### Concrete-value evaluation helpers (rational arithmetic is not
kernel-reducible, so witness computations go through `norm_num`) -/

lemma rat_floor_eq_intFloor (q : ℚ) : q.floor = ⌊q⌋ := by
  rw [Rat.floor_def, Rat.floor_def']

lemma pyInt_eval {q : ℚ} {z : ℤ} (h0 : 0 ≤ q) (h1 : (z : ℚ) ≤ q)
    (h2 : q < (z : ℚ) + 1) : pyInt q = z := by
  unfold pyInt
  rw [if_neg (not_lt.2 h0), rat_floor_eq_intFloor]
  exact Int.floor_eq_iff.2 ⟨h1, h2⟩

lemma within_eq_count (L M : Grid) :
    (analyzeRel L M).nuclei_within_myotubes =
      (analyzeRel L M).nuclei_in_myotube.count true := rfl

lemma outside_eq_count (L M : Grid) :
    (analyzeRel L M).nuclei_outside_myotubes =
      (analyzeRel L M).nuclei_in_myotube.count false := rfl

lemma region11 : nucleusRegion [[1]] 1 = {(0, 0)} := by decide

lemma centroid11 : centroidOf (nucleusRegion [[1]] 1) = (0, 0) := by
  rw [region11]
  unfold centroidOf
  rw [show ({(0, 0)} : Finset Pos).card = 1 from by decide,
    Finset.sum_singleton, Finset.sum_singleton]
  norm_num

lemma flag11 : nucleusFlag [[255]] ((0 : ℚ), (0 : ℚ)) = true := by
  have hp : pyInt (0 : ℚ) = 0 :=
    pyInt_eval (le_refl 0) (by norm_num) (by norm_num)
  unfold nucleusFlag
  rw [show ((0 : ℚ), (0 : ℚ)).1 = 0 from rfl,
    show ((0 : ℚ), (0 : ℚ)).2 = 0 from rfl, hp]
  decide

lemma region2211 :
    nucleusRegion [[1, 0], [1, 1]] 1 = {(0, 0), (1, 0), (1, 1)} := by decide

lemma centroid2211 :
    centroidOf (nucleusRegion [[1, 0], [1, 1]] 1) = (2/3, 1/3) := by
  rw [region2211]
  unfold centroidOf
  have h1 : ((0, 0) : Pos) ∉ ({(1, 0), (1, 1)} : Finset Pos) := by decide
  have h2 : ((1, 0) : Pos) ∉ ({(1, 1)} : Finset Pos) := by decide
  rw [show ({(0, 0), (1, 0), (1, 1)} : Finset Pos).card = 3 from by decide,
    Finset.sum_insert h1, Finset.sum_insert h2, Finset.sum_singleton,
    Finset.sum_insert h1, Finset.sum_insert h2, Finset.sum_singleton]
  norm_num

lemma specFlag2211 :
    specNearestFlag [[0, 0], [255, 0]] ((2/3 : ℚ), (1/3 : ℚ)) = true := by
  have hr1 : round (2/3 : ℚ) = 1 := by
    rw [round_eq]
    norm_num
  have hr2 : round (1/3 : ℚ) = 0 := by
    rw [round_eq]
    norm_num
  unfold specNearestFlag
  rw [show ((2/3 : ℚ), (1/3 : ℚ)).1 = 2/3 from rfl,
    show ((2/3 : ℚ), (1/3 : ℚ)).2 = 1/3 from rfl, hr1, hr2]
  decide

lemma codeFlag2211 :
    nucleusFlag [[0, 0], [255, 0]] ((2/3 : ℚ), (1/3 : ℚ)) = false := by
  have hp1 : pyInt (2/3 : ℚ) = 0 :=
    pyInt_eval (by norm_num) (by norm_num) (by norm_num)
  have hp2 : pyInt (1/3 : ℚ) = 0 :=
    pyInt_eval (by norm_num) (by norm_num) (by norm_num)
  unfold nucleusFlag
  rw [show ((2/3 : ℚ), (1/3 : ℚ)).1 = 2/3 from rfl,
    show ((2/3 : ℚ), (1/3 : ℚ)).2 = 1/3 from rfl, hp1, hp2]
  decide


/-! ## Claim theorems -/

/-- C1: for every analyzed image - a nuclei label map whose positive labels
form the dense range `1..max`, as the watershed map seeded from
`measure.label` markers produces - the relationship result satisfies
`nuclei_within_myotubes + nuclei_outside_myotubes = total_nuclei`,
`total_nuclei` equals the count nuclei detection reports (`np.max` of the
label map), and the `nuclei_centroids` and `nuclei_in_myotube` sequences
both have exactly that length. -/
theorem C1_relationship_counts (L M : Grid)
    (hdense : ∀ k, 0 < k → k ≤ L.maxVal → ∃ p, L.get p = k) :
    (analyzeRel L M).nuclei_within_myotubes +
        (analyzeRel L M).nuclei_outside_myotubes
      = totalNuclei (analyzeRel L M) ∧
    totalNuclei (analyzeRel L M) = nucleiCountOf L ∧
    (analyzeRel L M).nuclei_centroids.length = nucleiCountOf L ∧
    (analyzeRel L M).nuclei_in_myotube.length = nucleiCountOf L := by
  have hlen : (analyzeRel L M).nuclei_in_myotube.length = nucleiCountOf L := by
    rw [analyzeRel_in_myotube, List.length_map]
    exact uniqueNuclei_length L hdense
  have hclen : (analyzeRel L M).nuclei_centroids.length = nucleiCountOf L := by
    rw [analyzeRel_centroids, List.length_map]
    exact uniqueNuclei_length L hdense
  refine ⟨rfl, ?_, hclen, hlen⟩
  calc totalNuclei (analyzeRel L M)
      = (analyzeRel L M).nuclei_in_myotube.length :=
        within_add_outside_eq_length L M
    _ = nucleiCountOf L := hlen

/-- Witness for C1 at the 1×2 label map `[[1, 2]]` (labels 1 and 2 present,
maximum 2) against the mask `[[255, 0]]`. -/
theorem C1_relationship_counts_witness :
    (∀ k, 0 < k → k ≤ Grid.maxVal [[1, 2]] →
      ∃ p, Grid.get [[1, 2]] p = k) ∧
    (totalNuclei (analyzeRel [[1, 2]] [[255, 0]]) = nucleiCountOf [[1, 2]] ∧
      (analyzeRel [[1, 2]] [[255, 0]]).nuclei_in_myotube.length
        = nucleiCountOf [[1, 2]]) := by
  have hd : ∀ k, 0 < k → k ≤ Grid.maxVal [[1, 2]] →
      ∃ p, Grid.get [[1, 2]] p = k := by
    intro k h1 h2
    have hm : Grid.maxVal [[1, 2]] = 2 := by decide
    rw [hm] at h2
    interval_cases k
    · exact ⟨(0, 0), rfl⟩
    · exact ⟨(0, 1), rfl⟩
  have h := C1_relationship_counts [[1, 2]] [[255, 0]] hd
  exact ⟨hd, h.2.1, h.2.2.2⟩

/-- C2: `percentage_within_myotubes` equals `within / (within + outside) *
100` when at least one nucleus was classified, equals exactly 0 when there
are no nuclei, and always lies in [0, 100]; the division is reached only
under the `total_nuclei > 0` guard, so no division-by-zero fault occurs. -/
theorem C2_percentage_within (L M : Grid) :
    (0 < totalNuclei (analyzeRel L M) →
      percentageWithin (analyzeRel L M) =
        ((analyzeRel L M).nuclei_within_myotubes : ℚ) /
          (totalNuclei (analyzeRel L M) : ℚ) * 100) ∧
    (totalNuclei (analyzeRel L M) = 0 →
      percentageWithin (analyzeRel L M) = 0) ∧
    0 ≤ percentageWithin (analyzeRel L M) ∧
    percentageWithin (analyzeRel L M) ≤ 100 := by
  refine ⟨?_, ?_, percentageWithin_nonneg _, percentageWithin_le_100 _⟩
  · intro h
    unfold percentageWithin
    rw [if_pos h]
  · intro h
    unfold percentageWithin
    rw [if_neg (by omega)]

/-- Witness for C2 at a single nucleus inside the mask. -/
theorem C2_percentage_within_witness :
    0 < totalNuclei (analyzeRel [[1]] [[255]]) ∧
    percentageWithin (analyzeRel [[1]] [[255]]) =
      ((analyzeRel [[1]] [[255]]).nuclei_within_myotubes : ℚ) /
        (totalNuclei (analyzeRel [[1]] [[255]]) : ℚ) * 100 := by
  have hfl : (analyzeRel [[1]] [[255]]).nuclei_in_myotube = [true] := by
    rw [analyzeRel_in_myotube,
      show uniqueNuclei [[1]] = [1] from by decide,
      List.map_cons, List.map_nil, centroid11, flag11]
  have h : 0 < totalNuclei (analyzeRel [[1]] [[255]]) := by
    unfold totalNuclei
    rw [within_eq_count, outside_eq_count, hfl]
    decide
  exact ⟨h, (C2_percentage_within [[1]] [[255]]).1 h⟩

/-- C3 counterexample: the label map `[[1, 0], [1, 1]]` holds one nucleus
with centroid `(2/3, 1/3)`.  Its nearest-integer coordinate is `(1, 0)`,
where the mask `[[0, 0], [255, 0]]` is foreground, so the claim's
nearest-integer reading classifies it "within" - but the code truncates with
`int()` to `(0, 0)`, where the mask is background, and classifies it
"outside".  The claimed equivalence is therefore false. -/
theorem C3_nearest_integer_cex :
    specNearestFlag [[0, 0], [255, 0]]
        (centroidOf (nucleusRegion [[1, 0], [1, 1]] 1)) = true ∧
    (analyzeRel [[1, 0], [1, 1]] [[0, 0], [255, 0]]).nuclei_in_myotube
      = [false] := by
  constructor
  · rw [centroid2211]
    exact specFlag2211
  · rw [analyzeRel_in_myotube,
      show uniqueNuclei [[1, 0], [1, 1]] = [1] from by decide,
      List.map_cons, List.map_nil, centroid2211, codeFlag2211]

/-- C3 amended: the analyzer classifies a nucleus as within a myotube iff
the mask is foreground at the TRUNCATED (floor, via Python `int()`) integer
coordinate of its centroid, the flag list being exactly the per-label map of
that test; a truncated coordinate at or beyond the upper image bounds is
classified outside (and the embedding is total: no error is raised). -/
theorem C3_truncated_classification (L M : Grid) :
    ((analyzeRel L M).nuclei_in_myotube =
      (uniqueNuclei L).map fun l =>
        nucleusFlag M (centroidOf (nucleusRegion L l))) ∧
    (∀ c : ℚ × ℚ, nucleusFlag M c = true ↔
      (pyInt c.1 < (M.H : ℤ) ∧ pyInt c.2 < (M.W : ℤ) ∧
        0 < M.get (pyIdx M.H (pyInt c.1), pyIdx M.W (pyInt c.2)))) ∧
    (∀ c : ℚ × ℚ, (M.H : ℤ) ≤ pyInt c.1 ∨ (M.W : ℤ) ≤ pyInt c.2 →
      nucleusFlag M c = false) := by
  refine ⟨analyzeRel_in_myotube L M, nucleusFlag_iff M, ?_⟩
  intro c hc
  cases h : nucleusFlag M c with
  | false => rfl
  | true =>
    obtain ⟨h1, h2, _⟩ := (nucleusFlag_iff M c).1 h
    rcases hc with hc | hc
    · exact absurd h1 (not_lt.2 hc)
    · exact absurd h2 (not_lt.2 hc)

/-- Witness instantiating the amended C3 on the counterexample image. -/
theorem C3_truncated_classification_witness :
    (analyzeRel [[1, 0], [1, 1]] [[0, 0], [255, 0]]).nuclei_in_myotube =
      (uniqueNuclei [[1, 0], [1, 1]]).map fun l =>
        nucleusFlag [[0, 0], [255, 0]]
          (centroidOf (nucleusRegion [[1, 0], [1, 1]] l)) :=
  (C3_truncated_classification [[1, 0], [1, 1]] [[0, 0], [255, 0]]).1

/-- C4 counterexample: the area-percentage computation
`(total_myotube_area / image_area) * 100` carries no guard - on a zero-area
image it faults (Python `ZeroDivisionError`, modelled by `none`), so the
claim that it "is guarded against image_area == 0 and never produces a
division fault" is false. -/
theorem C4_unguarded_cex : myotubeAreaPercentage 0 0 0 = none := rfl

/-- C4 amended: `percentage_within_myotubes` is explicitly guarded (claim
C2), but `myotube_area_percentage` is not: it faults exactly when
`image_area = H * W` is zero, and for every image of positive area it is
computed, fault-free, as `(total_myotube_area / image_area) * 100`. -/
theorem C4_area_percentage (t hgt wid : Nat) :
    (myotubeAreaPercentage t hgt wid = none ↔ hgt * wid = 0) ∧
    (0 < hgt * wid →
      myotubeAreaPercentage t hgt wid =
        some ((t : ℚ) / ((hgt * wid : Nat) : ℚ) * 100)) := by
  unfold myotubeAreaPercentage
  constructor
  · by_cases h : hgt * wid = 0
    · simp [h]
    · simp [h]
  · intro h
    rw [if_neg (by omega)]

/-- Witness for the amended C4 at a 2×3 image with 50 foreground pixels. -/
theorem C4_area_percentage_witness :
    0 < 2 * 3 ∧ myotubeAreaPercentage 50 2 3 =
      some ((50 : ℚ) / ((2 * 3 : Nat) : ℚ) * 100) :=
  ⟨by decide, (C4_area_percentage 50 2 3).2 (by decide)⟩

/-- C6: after connected-component labelling of the cleaned mask, every
component of area below 100 is discarded - its pixels read background in the
filtered mask (and a pixel survives iff its component reaches the minimum
area) - while `myotube_count` and `total_myotube_area` equal the number of
remaining components and the sum of their areas. -/
theorem C6_minimum_area_filter (g : Grid) :
    (∀ p, g.get p ≠ 0 → (comp g p).card < minArea →
      (areaFilter g).get p = 0) ∧
    (∀ p, (areaFilter g).get p ≠ 0 ↔
      g.get p ≠ 0 ∧ minArea ≤ (comp g p).card) ∧
    myotubeCount g = (bigComps g).card ∧
    totalMyotubeArea g = ∑ c ∈ bigComps g, c.card := by
  refine ⟨?_, areaFilter_fg g, myotubeCount_eq_bigComps_card g,
    totalMyotubeArea_eq_bigComps_sum g⟩
  intro p hfg hsmall
  rw [areaFilter_get, if_neg]
  rintro ⟨_, hbig⟩
  omega

/-- Witness for C6: a lone pixel (area 1 < 100) is reset to background. -/
theorem C6_minimum_area_filter_witness :
    Grid.get [[255]] (0, 0) ≠ 0 ∧ (comp [[255]] (0, 0)).card < minArea ∧
      (areaFilter [[255]]).get (0, 0) = 0 := by
  have h1 : Grid.get [[255]] (0, 0) ≠ 0 := by decide
  have h2 : (comp [[255]] (0, 0)).card < minArea := by decide
  exact ⟨h1, h2, (C6_minimum_area_filter [[255]]).1 (0, 0) h1 h2⟩

/-- C7: the area filter is idempotent - relabelling and refiltering the
already-filtered mask returns the identical mask, the same region count and
the same total area. -/
theorem C7_area_filter_idempotent (g : Grid) :
    areaFilter (areaFilter g) = areaFilter g ∧
    myotubeCount (areaFilter g) = myotubeCount g ∧
    totalMyotubeArea (areaFilter g) = totalMyotubeArea g :=
  ⟨areaFilter_idem g, myotubeCount_areaFilter g,
    totalMyotubeArea_areaFilter g⟩

/-- C8: on a nuclei channel that is entirely zero, the Otsu binarisation is
empty, no local maxima are found, the watershed label map is all-zero, and
the reported nucleus count is 0 (every stage is a total function - no
exception is raised). -/
theorem C8_all_zero_channel (c : Grid) (h : ∀ p, c.get p = 0) :
    (∀ p, (nucleiBinary c).get p = 0) ∧
    nucleiPeaks c = [] ∧
    (∀ p, (detectNucleiLabels c).get p = 0) ∧
    nucleiCountOf (detectNucleiLabels c) = 0 :=
  ⟨nucleiBinary_allZero h, nucleiPeaks_nil h, detectNucleiLabels_allZero h,
    maxVal_allZero (detectNucleiLabels_allZero h)⟩

/-- Witness for C8 at the all-black 2×2 channel. -/
theorem C8_all_zero_channel_witness :
    (∀ p, (Grid.zero 2 2).get p = 0) ∧
    nucleiPeaks (Grid.zero 2 2) = [] ∧
    nucleiCountOf (detectNucleiLabels (Grid.zero 2 2)) = 0 := by
  have h := zero_get 2 2
  have hc := C8_all_zero_channel (Grid.zero 2 2) h
  exact ⟨h, hc.2.1, hc.2.2.2⟩

/-- C9 counterexample: channel extraction does NOT fail on a zero-dimension
source image - numpy slicing `img[:, :, 0]` of a `(0, 0, 3)` array succeeds
and returns an empty grid - refuting the claim that extraction fails with an
`InvalidImage` error whenever the image has zero dimensions. -/
theorem C9_zero_dims_cex :
    isOkE (extractChannel ⟨0, 0, 3, fun _ _ _ => 0⟩ 0) = true := rfl

/-- C9 amended: channel extraction fails - with the array library's
`IndexError`, there is no dedicated `InvalidImage` error in the code - iff
the requested channel is missing (regardless of the row/column dimensions,
so zero-sized images are not rejected), and the failure carries no partial
result; the only explicit load-time validation raises `ValueError` exactly
when the image failed to decode. -/
theorem C9_channel_extraction (img : Img) (c : Nat) :
    (isOkE (extractChannel img c) = true ↔ c < img.channels) ∧
    (img.channels ≤ c →
      extractChannel img c = Except.error PyErr.indexError) ∧
    (∀ d : Option Img,
      loadImage d = Except.error PyErr.valueError ↔ d = none) := by
  refine ⟨?_, ?_, ?_⟩
  · unfold extractChannel isOkE
    by_cases h : c < img.channels
    · simp [h]
    · simp [h]
  · intro h
    unfold extractChannel
    rw [if_neg (by omega)]
  · intro d
    cases d with
    | none => simp [loadImage]
    | some i => simp [loadImage]

/-- Witness for the amended C9: requesting channel 2 of a 2-channel image
fails with `IndexError`. -/
theorem C9_channel_extraction_witness :
    Img.channels ⟨2, 2, 2, fun _ _ _ => 0⟩ ≤ 2 ∧
    extractChannel ⟨2, 2, 2, fun _ _ _ => 0⟩ 2
      = Except.error PyErr.indexError :=
  ⟨by decide, (C9_channel_extraction ⟨2, 2, 2, fun _ _ _ => 0⟩ 2).2.1
    (by decide)⟩

/-- C10: for every label present in a rectangular `H×W` nuclei label map,
the truncated centroid coordinates of its (nonempty) region satisfy
`0 ≤ y < H` and `0 ≤ x < W`; hence when the myotube mask has the same shape
the upper-bound guard always passes, the mask lookup never indexes out of
bounds (in particular never negatively, although the code checks no lower
bound), and the out-of-bounds "outside" branch is unreachable: the flag is
exactly the mask test at the truncated coordinate. -/
theorem C10_centroid_in_bounds (L M : Grid) (l : Nat) (hrect : L.Rect)
    (hl : l ∈ uniqueNuclei L) (hH : M.H = L.H) (hW : M.W = L.W) :
    0 ≤ pyInt (centroidOf (nucleusRegion L l)).1 ∧
    pyInt (centroidOf (nucleusRegion L l)).1 < (M.H : ℤ) ∧
    0 ≤ pyInt (centroidOf (nucleusRegion L l)).2 ∧
    pyInt (centroidOf (nucleusRegion L l)).2 < (M.W : ℤ) ∧
    nucleusFlag M (centroidOf (nucleusRegion L l)) =
      decide (0 < M.get ((pyInt (centroidOf (nucleusRegion L l)).1).toNat,
        (pyInt (centroidOf (nucleusRegion L l)).2).toNat)) :=
  nucleusFlag_guard hrect hl hH hW

/-- Witness for C10 at the 1×1 label map `[[1]]` and mask `[[255]]`. -/
theorem C10_centroid_in_bounds_witness :
    Grid.Rect [[1]] ∧ (1 : Nat) ∈ uniqueNuclei [[1]] ∧
    nucleusFlag [[255]] (centroidOf (nucleusRegion [[1]] 1)) =
      decide (0 < Grid.get [[255]]
        ((pyInt (centroidOf (nucleusRegion [[1]] 1)).1).toNat,
          (pyInt (centroidOf (nucleusRegion [[1]] 1)).2).toNat)) := by
  have h1 : Grid.Rect [[1]] := by decide
  have h2 : (1 : Nat) ∈ uniqueNuclei [[1]] := by decide
  exact ⟨h1, h2,
    (C10_centroid_in_bounds [[1]] [[255]] 1 h1 h2 rfl rfl).2.2.2.2⟩


end ImgAnalysis
